import Mathlib

/-!
Verification of the DroidForge orchestration core.

Shallow embedding of the orchestration layer of the NTRLI_DroidForge repository:
command-argument value coercion (src/command_processor.py), the configuration
store (src/config_manager.py), the event bus (src/event_bus.py), the execution
engine (src/legacy_engine.py), and the workflow engine (src/workflow_engine.py).
Python dictionaries are modelled as insertion-ordered association lists, Python
exceptions as `Except`, and the handful of external effects (handlers, condition
evaluation) as explicit oracle parameters.
-/

namespace DF

/-- Python runtime value, as it occurs in command parameters, configuration
entries and handler results.  Float values perform no arithmetic anywhere in
the modelled code, so a float is represented abstractly by its literal text. -/
inductive PV where
  | str (s : String)
  | int (n : Int)
  | float (lit : String)
  | bool (b : Bool)
  | none
  | list (xs : List PV)
  | dict (kvs : List (String × PV))

/-- Is this value a float?  (Used to state type-coercion claims.) -/
def PV.isFloatVal : PV → Bool
  | .float _ => true
  | _ => false

/-- Is this value a string?  (Used to state interpolation claims.) -/
def PV.isStrVal : PV → Bool
  | .str _ => true
  | _ => false

mutual

/-- Structural equality test on Python values: the model of Python `==`/`!=`
on the value types above. -/
def PV.beq : PV → PV → Bool
  | .str a, .str b => a == b
  | .int a, .int b => a == b
  | .float a, .float b => a == b
  | .bool a, .bool b => a == b
  | .none, .none => true
  | .list xs, .list ys => PV.beqList xs ys
  | .dict xs, .dict ys => PV.beqKVList xs ys
  | _, _ => false

/-- Elementwise `PV.beq` on lists. -/
def PV.beqList : List PV → List PV → Bool
  | [], [] => true
  | a :: as, b :: bs => PV.beq a b && PV.beqList as bs
  | _, _ => false

/-- Elementwise `PV.beq` on key/value lists. -/
def PV.beqKVList : List (String × PV) → List (String × PV) → Bool
  | [], [] => true
  | (k, a) :: as, (k', b) :: bs => k == k' && PV.beq a b && PV.beqKVList as bs
  | _, _ => false

end

/-! ### Computable string helpers

The Lean core `String.toLower`, `String.contains`, `String.startsWith` … are
iterator-based and do not reduce inside the kernel, so the embedding uses
character-list equivalents throughout. -/

/-- ASCII lower-casing, the model of Python `str.lower()` on the command
literals that occur here. -/
def lowerStr (s : String) : String := String.mk (s.data.map Char.toLower)

/-- Does the string contain the character?  Model of Python `in` on strings
with a single-character needle. -/
def strContains (s : String) (c : Char) : Bool := s.data.contains c

/-! ### Python `int()` / `float()` parsing (for `CommandProcessor._parse_value`) -/

/-- Whitespace characters stripped by Python numeric conversion (ASCII subset). -/
def isWS (c : Char) : Bool := c == ' ' || c == '\t' || c == '\n' || c == '\r'

/-- Strip leading and trailing whitespace from a character list. -/
def stripWS (cs : List Char) : List Char :=
  ((cs.dropWhile isWS).reverse.dropWhile isWS).reverse

/-- Decimal value of a non-empty all-digit character run; `none` otherwise. -/
def digitsToNat (cs : List Char) : Option Nat :=
  if cs.isEmpty then Option.none
  else cs.foldl
    (fun acc c =>
      acc.bind (fun n => if c.isDigit then some (n * 10 + (c.toNat - '0'.toNat)) else Option.none))
    (some 0)

/-- Model of Python `int(str)`: optional surrounding whitespace, an optional
sign, then decimal digits.  (Digit-group underscores are not modelled; no claim
depends on them.) -/
def pyIntParse (s : String) : Option Int :=
  match stripWS s.data with
  | '+' :: rest => (digitsToNat rest).map (fun n => (n : Int))
  | '-' :: rest => (digitsToNat rest).map (fun n => -(n : Int))
  | rest => (digitsToNat rest).map (fun n => (n : Int))

/-- Non-empty run of decimal digits. -/
def isDigitRun (cs : List Char) : Bool := !cs.isEmpty && cs.all (·.isDigit)

/-- Mantissa of a Python float literal: `digits [. digits]`, `digits .`,
or `. digits` — digits must appear on at least one side of the dot. -/
def isFloatMant (cs : List Char) : Bool :=
  match cs.span (fun c => c != '.') with
  | (intPart, []) => isDigitRun intPart
  | (intPart, _dot :: frac) =>
      intPart.all (·.isDigit) && frac.all (·.isDigit) && (!intPart.isEmpty || !frac.isEmpty)

/-- Body of a Python float literal after the optional sign: a mantissa with an
optional `e`/`E` exponent (itself optionally signed). -/
def isPyFloatBody (cs : List Char) : Bool :=
  match cs.span (fun c => c != 'e' && c != 'E') with
  | (mant, []) => isFloatMant mant
  | (mant, _e :: expPart) =>
      isFloatMant mant &&
      (match expPart with
       | '+' :: ds => isDigitRun ds
       | '-' :: ds => isDigitRun ds
       | ds => isDigitRun ds)

/-- Model of Python `float(str)` restricted to finite numeric literals
(`inf`/`nan` words are omitted: `_parse_value` only attempts the float
conversion on strings that contain a dot, which those words never do).  On
success the resulting float is represented by its stripped literal text. -/
def pyFloatParse (s : String) : Option String :=
  let cs := stripWS s.data
  let body :=
    match cs with
    | '+' :: rest => rest
    | '-' :: rest => rest
    | rest => rest
  if isPyFloatBody body then some (String.mk cs) else Option.none

/-- The case-insensitive literals `_parse_value` coerces to `True`. -/
def boolTrueLits : List String := ["true", "yes", "on", "1"]

/-- The case-insensitive literals `_parse_value` coerces to `False`. -/
def boolFalseLits : List String := ["false", "no", "off", "0"]

/-- `CommandProcessor._parse_value` (src/command_processor.py, lines 308–325):
boolean literals first; then, inside one try/except, `float(value)` when the
value contains a dot and otherwise `int(value)`; a conversion error falls
through to keeping the string. -/
def parseValue (value : String) : PV :=
  if boolTrueLits.contains (lowerStr value) then
    .bool true
  else if boolFalseLits.contains (lowerStr value) then
    .bool false
  else if strContains value '.' then
    match pyFloatParse value with
    | some lit => .float lit
    | Option.none => .str value
  else
    match pyIntParse value with
    | some n => .int n
    | Option.none => .str value

/-! ### Python dictionaries as insertion-ordered association lists -/

/-- `dict.get(k)`: value of the first (and, for a real dict, only) entry with
key `k`. -/
def alistGet {α : Type} : List (String × α) → String → Option α
  | [], _ => Option.none
  | (k', v) :: rest, k => if k' = k then some v else alistGet rest k

/-- `dict.get(k, d)`: lookup with a default. -/
def alistGetD {α : Type} (m : List (String × α)) (k : String) (d : α) : α :=
  (alistGet m k).getD d

/-- `dict[k] = v`: replace the value in place when the key is present,
otherwise append a new entry. -/
def alistSet {α : Type} : List (String × α) → String → α → List (String × α)
  | [], k, v => [(k, v)]
  | (k', v') :: rest, k, v =>
      if k' = k then (k, v) :: rest else (k', v') :: alistSet rest k v

/-- `dict.update(other)`: assign every entry of `other`, in order. -/
def alistUpdate {α : Type} (m other : List (String × α)) : List (String × α) :=
  other.foldl (fun acc kv => alistSet acc kv.1 kv.2) m

/-- `defaultdict(list)`-style append used by the event-bus subscribe calls:
extend the list under `k`, creating the entry when absent. -/
def alistAppend (m : List (String × List Nat)) (k : String) (cb : Nat) :
    List (String × List Nat) :=
  match m with
  | [] => [(k, [cb])]
  | (k', l) :: rest =>
      if k' = k then (k', l ++ [cb]) :: rest else (k', l) :: alistAppend rest k cb

/-- `dict.pop(k, [])`: remove the entry for `k`, returning its value (or `[]`)
and the remaining table. -/
def alistPop (m : List (String × List Nat)) (k : String) :
    List Nat × List (String × List Nat) :=
  match m with
  | [] => ([], [])
  | (k', l) :: rest =>
      if k' = k then (l, rest)
      else
        let r := alistPop rest k
        (r.1, (k', l) :: r.2)

/-! ### Configuration store (src/config_manager.py)

Callbacks are identified by numeric ids; whether a given callback raises when
invoked is an oracle `raises : Nat → Bool`.  The subscriber loops attempt every
callback under a per-callback try/except, so a dispatch returns both the
callbacks invoked (in order) and those whose invocation raised (logged). -/

/-- `ConfigManager.DEFAULTS` (src/config_manager.py, lines 29–79). -/
def configDefaults : List (String × PV) :=
  [("app.name", .str "DroidForge Console"),
   ("app.version", .str "1.0.0"),
   ("app.debug", .bool false),
   ("theme.style", .str "Dark"),
   ("theme.primary_color", .str "Green"),
   ("theme.accent_color", .str "Lime"),
   ("engine.max_queue_size", .int 100),
   ("engine.worker_threads", .int 1),
   ("engine.command_timeout", .int 300),
   ("build.target", .str "android"),
   ("build.debug", .bool true),
   ("build.auto_sign", .bool false),
   ("build.min_sdk", .int 21),
   ("build.target_sdk", .int 33),
   ("github.enabled", .bool true),
   ("github.owner", .str ""),
   ("github.repo", .str ""),
   ("github.branch", .str "main"),
   ("github.workflow", .str "build.yml"),
   ("ai.enabled", .bool true),
   ("ai.model", .str "local"),
   ("ai.temperature", .float "0.7"),
   ("ai.max_tokens", .int 2048),
   ("automation.auto_build", .bool false),
   ("automation.auto_test", .bool true),
   ("automation.auto_deploy", .bool false),
   ("logging.level", .str "INFO"),
   ("logging.file_enabled", .bool true),
   ("logging.max_size_mb", .int 10),
   ("network.timeout", .int 30),
   ("network.retry_count", .int 3),
   ("network.proxy_enabled", .bool false)]

/-- `ConfigManager._load` when a config file with contents `saved` exists (an
empty `saved` models the fresh-install path): defaults overlaid with the saved
overrides. -/
def configLoad (saved : List (String × PV)) : List (String × PV) :=
  alistUpdate configDefaults saved

/-- The `_config[key] = value` assignment inside `ConfigManager.set`. -/
def configAssign (c : List (String × PV)) (k : String) (v : PV) : List (String × PV) :=
  alistSet c k v

/-- `ConfigManager.reset(key)` for a specific key: re-assign the default when
the key has one, otherwise do nothing. -/
def configResetKey (c : List (String × PV)) (k : String) : List (String × PV) :=
  match alistGet configDefaults k with
  | some v => configAssign c k v
  | Option.none => c

/-- `ConfigManager.export_config`: a (copy of) the configuration dict. -/
def exportConfig (c : List (String × PV)) : List (String × PV) := c

/-- `ConfigManager.import_config`: start over from the defaults unless merging,
then assign every imported entry (with notification suppressed). -/
def importConfig (c : List (String × PV)) (cfg : List (String × PV)) (merge : Bool) :
    List (String × PV) :=
  alistUpdate (if merge then c else configDefaults) cfg

/-- The configuration dictionaries reachable through the store's public
API (`_load` at construction, then any sequence of `set`/`set_section`,
`reset`, `import_config`). -/
inductive ConfigReachable : List (String × PV) → Prop where
  | load (saved : List (String × PV)) : ConfigReachable (configLoad saved)
  | set (k : String) (v : PV) {c : List (String × PV)} :
      ConfigReachable c → ConfigReachable (configAssign c k v)
  | resetAll {c : List (String × PV)} : ConfigReachable c → ConfigReachable configDefaults
  | resetKey (k : String) {c : List (String × PV)} :
      ConfigReachable c → ConfigReachable (configResetKey c k)
  | importCfg (cfg : List (String × PV)) (merge : Bool) {c : List (String × PV)} :
      ConfigReachable c → ConfigReachable (importConfig c cfg merge)

/-- Invoke a list of callbacks the way the Python loops with a per-callback
try/except do: every callback is attempted in order; the ones that raise are
caught and logged.  Returns (invoked in order, raisers logged). -/
def runCallbacks (raises : Nat → Bool) : List Nat → List Nat × List Nat
  | [] => ([], [])
  | cb :: rest =>
      let r := runCallbacks raises rest
      (cb :: r.1, (if raises cb then [cb] else []) ++ r.2)

/-- Python `str.split(sep)` for a single-character separator, on char lists. -/
def splitOnChar (sep : Char) : List Char → List (List Char)
  | [] => [[]]
  | c :: rest =>
      match splitOnChar sep rest with
      | g :: gs => if c = sep then [] :: g :: gs else (c :: g) :: gs
      | [] => [[c]]

/-- Python `key.split(".")`. -/
def splitDots (s : String) : List String :=
  (splitOnChar '.' s.data).map String.mk

/-- The wildcard patterns `_notify_subscribers` consults for `key`, in code
order: `for i in range(len(parts))` builds the pattern that joins
`parts[:i+1]` with dots and appends `.*`,
i.e. the shortest prefix's pattern first, up to and including the full key's
own `.*` pattern. -/
def wildcardPatterns (key : String) : List String :=
  let parts := splitDots key
  (List.range parts.length).map
    (fun i => String.intercalate "." (parts.take (i + 1)) ++ ".*")

/-- `ConfigManager._notify_subscribers` (src/config_manager.py, lines
229–246): exact-key subscribers first, then the subscribers of each wildcard
pattern in `wildcardPatterns` order. -/
def notifySubscribers (subs : List (String × List Nat)) (raises : Nat → Bool)
    (key : String) : List Nat × List Nat :=
  let r0 := runCallbacks raises (alistGetD subs key [])
  (wildcardPatterns key).foldl
    (fun acc p =>
      let r := runCallbacks raises (alistGetD subs p [])
      (acc.1 ++ r.1, acc.2 ++ r.2))
    r0

/-- Configuration store state: the `_config` dict and the `_subscribers`
table. -/
structure ConfigState where
  cfg : List (String × PV)
  subs : List (String × List Nat)

/-- `ConfigManager.set` (src/config_manager.py, lines 160–179): assign, then —
only when notification is on and the value actually changed under Python
`!=` — notify the key's subscribers and emit a bus-level `config_changed`
event.  Returns the new state, the callbacks invoked, the callbacks logged as
raising, and the bus events emitted. -/
def configSetNotify (st : ConfigState) (raises : Nat → Bool) (key : String)
    (v : PV) (notify : Bool) :
    ConfigState × List Nat × List Nat × List String :=
  let old := (alistGet st.cfg key).getD PV.none
  let cfg' := configAssign st.cfg key v
  if notify && !(PV.beq old v) then
    let r := notifySubscribers st.subs raises key
    ({ st with cfg := cfg' }, r.1, r.2, ["config_changed"])
  else
    ({ st with cfg := cfg' }, [], [], [])

/-! ### Event bus (src/event_bus.py), synchronous delivery mode -/

/-- Does `s` start with `p`? -/
def strStartsWith (s p : String) : Bool := p.data.isPrefixOf s.data

/-- Does `s` end with `p`? -/
def strEndsWith (s p : String) : Bool := p.data.isSuffixOf s.data

/-- Python `s[:-n]` for `0 < n ≤ len(s)`. -/
def strDropRight (s : String) (n : Nat) : String :=
  String.mk (s.data.take (s.data.length - n))

/-- `EventBus._matches_pattern` (src/event_bus.py, lines 179–191): an exact
match is excluded (already dispatched), a `.*` pattern matches names sharing
the dotted prefix, and a bare `*` matches everything. -/
def matchesPattern (eventName pat : String) : Bool :=
  if pat = eventName then false
  else if strEndsWith pat ".*" then strStartsWith eventName (strDropRight pat 2 ++ ".")
  else pat = "*"

/-- Event bus subscriber state: the `_subscribers` and `_once_subscribers`
tables.  (Event history and the async queue are outside the claims modelled
here.) -/
structure BusState where
  subs : List (String × List Nat)
  once : List (String × List Nat)

/-- `EventBus.subscribe`. -/
def busSubscribe (st : BusState) (pat : String) (cb : Nat) : BusState :=
  { st with subs := alistAppend st.subs pat cb }

/-- `EventBus.subscribe_once` (src/event_bus.py, lines 97–107). -/
def busSubscribeOnce (st : BusState) (name : String) (cb : Nat) : BusState :=
  { st with once := alistAppend st.once name cb }

/-- `EventBus._dispatch_event` (src/event_bus.py, lines 150–177): collect the
exact-name subscribers, then every wildcard-matching subscriber list, then pop
the one-shot entry for the name — removing it from the table before any
handler runs — and invoke the collected handlers each under try/except.
Returns the new state, the handlers invoked in order, and the raisers
logged. -/
def busDispatch (st : BusState) (raises : Nat → Bool) (name : String) :
    BusState × List Nat × List Nat :=
  let exact := alistGetD st.subs name []
  let wild := st.subs.foldl
    (fun acc e => if matchesPattern name e.1 then acc ++ e.2 else acc) []
  let oncePopped := alistPop st.once name
  let handlers := exact ++ wild ++ oncePopped.1
  let r := runCallbacks raises handlers
  ({ st with once := oncePopped.2 }, r.1, r.2)

/-- The callback `cb` is registered nowhere on the bus. -/
def cbFree (b : BusState) (cb : Nat) : Prop :=
  (∀ e ∈ b.subs, cb ∉ e.2) ∧ (∀ e ∈ b.once, cb ∉ e.2)

/-! ### Execution engine (src/legacy_engine.py) -/

/-- The execution context handed to a command handler (the configuration
reference and wall-clock fields are omitted). -/
structure Ctx where
  executionId : String
  command : String
  params : List (String × PV)

/-- A registered command handler: returns a result value or raises. -/
def Handler : Type := Ctx → Except String PV

/-- An execution record (the `execution_record` dict built by
`DroidForgeEngine.execute`; the submission timestamp and `elapsed_ms` are
wall-clock data and are omitted). -/
structure ExecRecord where
  id : String
  command : String
  params : List (String × PV)
  status : String
  result : Option PV := Option.none
  error : Option String := Option.none

/-- Engine state: the handler registry, the append-only execution history, and
the bus events emitted so far (by name, in order). -/
structure EngineState where
  handlers : List (String × Handler)
  history : List ExecRecord
  events : List String

/-- The try-block of `DroidForgeEngine._execute_sync`: look up the handler —
raising `ValueError` for an unknown command — invoke it (any exception it
raises propagates), and on success complete the record and emit
`command_completed`. -/
def execBody (st : EngineState) (r : ExecRecord) : Except String (ExecRecord × List String) :=
  match alistGet st.handlers r.command with
  | Option.none => .error ("Unknown command: " ++ r.command)
  | some h =>
      match h ⟨r.id, r.command, r.params⟩ with
      | .error e => .error e
      | .ok v => .ok ({ r with status := "completed", result := some v }, ["command_completed"])

/-- `DroidForgeEngine._execute_sync` (src/legacy_engine.py, lines 148–190):
any exception out of the body — handler failure or unknown command — is caught
and recorded as a failed record with `command_failed` emitted; the
finally-block appends the record to the execution history unconditionally. -/
def executeSync (st : EngineState) (r : ExecRecord) : ExecRecord × EngineState :=
  match execBody st r with
  | .ok (r', evs) =>
      (r', { st with history := st.history ++ [r'], events := st.events ++ evs })
  | .error e =>
      let r' := { r with status := "failed", error := some e }
      (r', { st with history := st.history ++ [r'], events := st.events ++ ["command_failed"] })

/-- `DroidForgeEngine.execute` with `async_exec=False`; the generated uuid
fragment is an oracle argument `execId`. -/
def executeCmd (st : EngineState) (execId command : String)
    (params : List (String × PV)) : ExecRecord × EngineState :=
  executeSync st { id := execId, command := command, params := params, status := "pending" }

/-- `DroidForgeEngine.get_history`: the Python slice `history[-limit:]` (which
is the whole list when `limit = 0`). -/
def getHistory (h : List ExecRecord) (limit : Nat) : List ExecRecord :=
  if limit = 0 then h else h.drop (h.length - limit)

/-- `n` repeated synchronous executions of the same command (each one appends
to the history; there is no trimming anywhere in the engine). -/
def execN (st : EngineState) (command : String) : Nat → EngineState
  | 0 => st
  | n + 1 =>
      (executeSync (execN st command n)
        { id := "x", command := command, params := [], status := "pending" }).2

/-! ### Workflow engine (src/workflow_engine.py)

The engine executes steps strictly sequentially (`_execute_run` loops over the
ready list calling `_execute_step`), so a run is a pure fold over the step
list.  External behaviour — condition evaluation (which includes its fail-open
default) and the underlying `engine.execute` — is an oracle; the engine oracle
is indexed by a global call counter so successive calls may behave
differently.  Step `started_at`/`completed_at` timestamps are wall-clock data
and are omitted. -/

/-- `StepStatus` (src/workflow_engine.py, lines 20–26). -/
inductive StepStatus where
  | pending
  | running
  | success
  | failed
  | skipped
  deriving DecidableEq, Repr

/-- `WorkflowStep`: definition fields plus runtime state.  `result` uses
`PV.none` for Python `None`. -/
structure WStep where
  id : String
  name : String
  command : String
  params : List (String × PV)
  dependsOn : List String
  condition : Option String
  timeoutSecs : Nat
  retryCount : Nat
  status : StepStatus
  result : PV
  error : Option String

/-- Outcome of one `engine.execute(step.command, params, async_exec=False)`
call as observed by `_execute_step`: a result record (with its `status`,
optional `result` and optional `error` entries) or a raised exception. -/
inductive EngineOutcome where
  | record (status : String) (result : Option PV) (error : Option String)
  | raised (msg : String)

/-- Oracles for the workflow engine's externals. -/
structure WfOracle where
  evalCond : String → List (String × PV) → Bool
  engineExec : Nat → String → List (String × PV) → EngineOutcome

/-- Mutable run state: the step list (runtime state included), the resolved
run variables, the `step_results` map, the engine calls made so far (call
index and command), and the global call counter. -/
structure WfState where
  steps : List WStep
  vars : List (String × PV)
  stepResults : List (String × PV)
  calls : List (Nat × String)
  callCount : Nat

/-- Replace every non-overlapping occurrence of `pat`, scanning left to
right — Python `str.replace` for a non-empty pattern (every pattern used by
`_interpolate_params` is non-empty).  Fuelled structural recursion; fuel =
input length suffices. -/
def replGo (pat rep : List Char) : Nat → List Char → List Char
  | _, [] => []
  | 0, s => s
  | n + 1, c :: rest =>
      if pat.isPrefixOf (c :: rest) then
        rep ++ replGo pat rep n (List.drop pat.length (c :: rest))
      else
        c :: replGo pat rep n rest

/-- Python `s.replace(pat, rep)` for non-empty `pat`. -/
def pyReplace (s pat rep : String) : String :=
  if pat.data.isEmpty then s
  else String.mk (replGo pat.data rep.data s.data.length s.data)

mutual

/-- Model of Python `repr()` on the embedded values (float text is the stored
literal). -/
def pyRepr : PV → String
  | .str s => "'" ++ s ++ "'"
  | .int n => toString n
  | .float lit => lit
  | .bool b => if b then "True" else "False"
  | .none => "None"
  | .list xs => "[" ++ String.intercalate ", " (pyReprList xs) ++ "]"
  | .dict kvs => "\x7b" ++ String.intercalate ", " (pyReprKV kvs) ++ "\x7d"

/-- `repr` of each list element. -/
def pyReprList : List PV → List String
  | [] => []
  | v :: rest => pyRepr v :: pyReprList rest

/-- `repr` of each dict entry. -/
def pyReprKV : List (String × PV) → List String
  | [] => []
  | (k, v) :: rest => ("'" ++ k ++ "': " ++ pyRepr v) :: pyReprKV rest

end

/-- Model of Python `str()` on the embedded values: a string renders as
itself, containers through `repr` of their elements. -/
def pyStr (v : PV) : String :=
  match v with
  | .str s => s
  | v => pyRepr v

/-- The substitutions `_interpolate_params` applies to one string value: each
`$\x7bvar\x7d` placeholder for each run variable in order, then each
`$\x7bsteps.<id>.result\x7d` placeholder for each recorded step result. -/
def interpolateStr (vars results : List (String × PV)) (s : String) : String :=
  let s1 := vars.foldl
    (fun acc kv => pyReplace acc ("$\x7b" ++ kv.1 ++ "\x7d") (pyStr kv.2)) s
  results.foldl
    (fun acc kv => pyReplace acc ("$\x7bsteps." ++ kv.1 ++ ".result\x7d") (pyStr kv.2)) s1

/-- `WorkflowEngine._interpolate_params` (src/workflow_engine.py, lines
447–466): rebuild the params dict, substituting placeholders in top-level
string values and copying every other value through unchanged. -/
def interpolateParams (params : List (String × PV)) (vars results : List (String × PV)) :
    List (String × PV) :=
  params.foldl
    (fun acc kv =>
      match kv.2 with
      | .str s => acc ++ [(kv.1, PV.str (interpolateStr vars results s))]
      | v => acc ++ [(kv.1, v)])
    []

/-- Update the step at position `i` (a position beyond the list is a no-op). -/
def updAt : List WStep → Nat → (WStep → WStep) → List WStep
  | [], _, _ => []
  | s :: rest, 0, f => f s :: rest
  | s :: rest, n + 1, f => s :: updAt rest n f

/-- `WorkflowRun._get_step`: the first step with the given id. -/
def findStep : List WStep → String → Option WStep
  | [], _ => Option.none
  | s :: rest, sid => if s.id = sid then some s else findStep rest sid

/-- Position of the first step with the given id. -/
def findStepIdx : List WStep → String → Option Nat
  | [], _ => Option.none
  | s :: rest, sid =>
      if s.id = sid then some 0 else (findStepIdx rest sid).map (· + 1)

/-- The dependency check of `get_ready_steps`: every dependency id that
resolves to a step must be SUCCESS; an unresolvable id is (per the code's
`if dep_step and …` guard) treated as satisfied. -/
def depsSatisfied (steps : List WStep) (s : WStep) : Bool :=
  s.dependsOn.all (fun d =>
    match findStep steps d with
    | some dep => dep.status == StepStatus.success
    | Option.none => true)

/-- `WorkflowRun.get_ready_steps` (src/workflow_engine.py, lines 138–157), as
the list of positions of the PENDING steps whose dependencies are met, in step
order. -/
def readySteps (steps : List WStep) : List Nat :=
  (List.range steps.length).filter (fun i =>
    match steps.get? i with
    | some s => s.status == StepStatus.pending && depsSatisfied steps s
    | Option.none => false)

/-- `WorkflowRun.is_complete`: no step PENDING or RUNNING. -/
def runComplete (steps : List WStep) : Bool :=
  steps.all (fun s => s.status != StepStatus.pending && s.status != StepStatus.running)

/-- `WorkflowRun.is_success`: complete with no FAILED step. -/
def runSuccess (steps : List WStep) : Bool :=
  steps.all (fun s => s.status != StepStatus.failed) && runComplete steps

/-- The retry loop of `_execute_step`: up to the given number of attempts;
a `completed` record succeeds with its `result` entry (Python `None` when
missing); any other record stores its `error` entry (default
`"Unknown error"`) and retries; a raised exception stores its message and
retries.  Returns the outcome, the new call counter and the calls made. -/
def retryLoop (o : WfOracle) (command : String) (params : List (String × PV)) :
    Nat → Nat → List (Nat × String) → Option String →
    (PV ⊕ Option String) × Nat × List (Nat × String)
  | 0, cc, calls, lastErr => (Sum.inr lastErr, cc, calls)
  | n + 1, cc, calls, _lastErr =>
      match o.engineExec cc command params with
      | .record st res err =>
          if st = "completed" then
            (Sum.inl (res.getD PV.none), cc + 1, calls ++ [(cc, command)])
          else
            retryLoop o command params n (cc + 1) (calls ++ [(cc, command)])
              (some (err.getD "Unknown error"))
      | .raised msg =>
          retryLoop o command params n (cc + 1) (calls ++ [(cc, command)]) (some msg)

/-- `WorkflowEngine._execute_step` (src/workflow_engine.py, lines 395–445):
mark the step RUNNING, then — if its condition evaluates false — mark it
SKIPPED without invoking the command; otherwise interpolate the parameters and
run the retry loop, ending SUCCESS (recording the result under the step id) or
FAILED (keeping the last error).  Returns the new state and the list of
step-list snapshots taken after each `step.status` assignment. -/
def execStep (o : WfOracle) (rs : WfState) (i : Nat) : WfState × List (List WStep) :=
  match rs.steps.get? i with
  | Option.none => (rs, [])
  | some st =>
      let s1 := updAt rs.steps i (fun s => { s with status := .running })
      let condFalse :=
        match st.condition with
        | some c => !(o.evalCond c rs.vars)
        | Option.none => false
      if condFalse then
        let s2 := updAt s1 i (fun s => { s with status := .skipped })
        ({ rs with steps := s2 }, [s1, s2])
      else
        let ps := interpolateParams st.params rs.vars rs.stepResults
        let r := retryLoop o st.command ps (st.retryCount + 1) rs.callCount rs.calls Option.none
        match r.1 with
        | Sum.inl v =>
            let s2 := updAt s1 i (fun s => { s with status := .success, result := v })
            ({ steps := s2, vars := rs.vars,
               stepResults := alistSet rs.stepResults st.id v,
               calls := r.2.2, callCount := r.2.1 }, [s1, s2])
        | Sum.inr e =>
            let s2 := updAt s1 i (fun s => { s with status := .failed, error := e })
            ({ steps := s2, vars := rs.vars, stepResults := rs.stepResults,
               calls := r.2.2, callCount := r.2.1 }, [s1, s2])

/-- One pass over a ready list (the sequential `for step in ready_steps`
loop). -/
def execRound (o : WfOracle) (rs : WfState) : List Nat → WfState × List (List WStep)
  | [] => (rs, [])
  | i :: rest =>
      let r1 := execStep o rs i
      let r2 := execRound o r1.1 rest
      (r2.1, r1.2 ++ r2.2)

/-- The deadlock arm of `_execute_run`: every remaining PENDING step is marked
SKIPPED. -/
def bulkSkip (steps : List WStep) : List WStep :=
  steps.map (fun s =>
    if s.status == StepStatus.pending then { s with status := .skipped } else s)

/-- The `while not run.is_complete()` loop of `_execute_run`
(src/workflow_engine.py, lines 367–393), fuelled.  Returns the final state and
the step-list snapshots taken after each status mutation. -/
def execLoop (o : WfOracle) : Nat → WfState → WfState × List (List WStep)
  | 0, rs => (rs, [])
  | n + 1, rs =>
      if runComplete rs.steps then (rs, [])
      else
        match readySteps rs.steps with
        | [] =>
            let s' := bulkSkip rs.steps
            ({ rs with steps := s' }, [s'])
        | i :: rest =>
            let r1 := execRound o rs (i :: rest)
            let r2 := execLoop o n r1.1
            (r2.1, r1.2 ++ r2.2)

/-- `WorkflowRun.__init__` (src/workflow_engine.py, lines 123–136): reset the
status, result and error of every step of the (shared!) definition. -/
def resetSteps (steps : List WStep) : List WStep :=
  steps.map (fun s => { s with status := .pending, result := PV.none, error := Option.none })

/-- A fresh run state as built by `run_workflow`: reset steps, definition
variables updated with the caller overrides, empty step results; the call
counter continues from the engine's. -/
def initRun (wf : List WStep) (wfVars overrides : List (String × PV)) (cc : Nat) : WfState :=
  { steps := resetSteps wf, vars := alistUpdate wfVars overrides,
    stepResults := [], calls := [], callCount := cc }

/-- `WorkflowEngine._execute_run`: every iteration with a non-empty ready list
drives at least one PENDING step to a terminal status, so fuel
`steps.length + 1` always reaches the loop's own exit. -/
def executeRun (o : WfOracle) (rs : WfState) : WfState × List (List WStep) :=
  execLoop o (rs.steps.length + 1) rs

/-- All step-list states of a run, the initial one included. -/
def runTrace (o : WfOracle) (rs : WfState) : List (List WStep) :=
  rs.steps :: (executeRun o rs).2

/-- The workflow registry as far as a run sees it: `run_workflow` hands
`WorkflowRun.__init__` the registered `WorkflowDefinition` object itself, so
the run's steps ARE the definition's step objects.  The registry therefore
stores one shared step list, the definition variables, the run ids issued so
far and the engine call counter. -/
structure WfRegistry where
  defSteps : List WStep
  defVariables : List (String × PV)
  runIds : List String
  callCount : Nat

/-- `WorkflowEngine.run_workflow` (src/workflow_engine.py, lines 330–365) on
the shared registry: `WorkflowRun.__init__` resets the definition's own step
objects in place (no clone), `_execute_run` then mutates them in place; the
stored run keeps a reference to those same objects. -/
def runWorkflowShared (o : WfOracle) (reg : WfRegistry) (runId : String)
    (overrides : List (String × PV)) : WfRegistry :=
  let rs := initRun reg.defSteps reg.defVariables overrides reg.callCount
  let r := executeRun o rs
  { defSteps := r.1.steps, defVariables := reg.defVariables,
    runIds := reg.runIds ++ [runId], callCount := r.1.callCount }

/-- Reading a run's recorded steps through the reference it holds: because of
the sharing, every run of a workflow reads the registry's single step list. -/
def runViewSteps (reg : WfRegistry) (_runId : String) : List WStep :=
  reg.defSteps

/-! ### Concrete workflow instances used to evaluate the claims -/

/-- A single dependency-free step guarded by a condition. -/
def demoStepCond : WStep :=
  { id := "s", name := "s", command := "c", params := [], dependsOn := [],
    condition := some "cond", timeoutSecs := 300, retryCount := 0,
    status := .pending, result := PV.none, error := Option.none }

/-- Oracle whose condition evaluation is false and whose engine always
completes. -/
def demoCondFalseOracle : WfOracle :=
  { evalCond := fun _ _ => false,
    engineExec := fun _ _ _ => .record "completed" (some (PV.int 7)) Option.none }

/-- A single unguarded, dependency-free step. -/
def demoStepOk : WStep :=
  { id := "s", name := "s", command := "c", params := [], dependsOn := [],
    condition := Option.none, timeoutSecs := 300, retryCount := 0,
    status := .pending, result := PV.none, error := Option.none }

/-- Oracle whose engine completes every call, returning the global call index
as the result — so the first and the second run of a workflow record
observably different step results. -/
def demoCountOracle : WfOracle :=
  { evalCond := fun _ _ => true,
    engineExec := fun cc _ _ => .record "completed" (some (PV.int (Int.ofNat cc))) Option.none }

/-- A registry holding one registered single-step workflow. -/
def demoRegistry : WfRegistry :=
  { defSteps := [demoStepOk], defVariables := [], runIds := [], callCount := 0 }

/-- Steps A (no dependencies) and B (`depends_on = ["A"]`). -/
def demoStepA : WStep :=
  { id := "A", name := "A", command := "a", params := [], dependsOn := [],
    condition := Option.none, timeoutSecs := 300, retryCount := 0,
    status := .pending, result := PV.none, error := Option.none }

/-- See `demoStepA`. -/
def demoStepB : WStep :=
  { id := "B", name := "B", command := "b", params := [], dependsOn := ["A"],
    condition := Option.none, timeoutSecs := 300, retryCount := 0,
    status := .pending, result := PV.none, error := Option.none }

/-- Oracle whose engine fails every call. -/
def demoFailOracle : WfOracle :=
  { evalCond := fun _ _ => true,
    engineExec := fun _ _ _ => .record "failed" Option.none (some "boom") }

/-- No step is RUNNING (true at every loop boundary of `_execute_run`). -/
def noRunning (l : List WStep) : Bool :=
  l.all (fun s => s.status != StepStatus.running)

/-- Number of PENDING steps — the loop variant of `_execute_run`. -/
def pendingCount (l : List WStep) : Nat :=
  l.countP (fun s => s.status == StepStatus.pending)


/-! ### Specification predicates used by the theorems below -/

/-- Every key that has a default is present in the store. -/
def DefaultsPresent (c : List (String × PV)) : Prop :=
  ∀ k, (alistGet configDefaults k).isSome = true → (alistGet c k).isSome = true

/-- The transition order the code implements per step: PENDING may become
RUNNING or SKIPPED; RUNNING may become SUCCESS, FAILED or SKIPPED; the three
terminal statuses never change. -/
def statusLe : StepStatus → StepStatus → Bool
  | .pending, _ => true
  | .running, .pending => false
  | .running, _ => true
  | a, b => a == b

/-- Pointwise evolution order on step lists: same length; at each position the
id and dependency list are stable and the status moves along `statusLe`. -/
def stepsLe (l l' : List WStep) : Prop :=
  l.length = l'.length ∧
  ∀ i s s', l.get? i = some s → l'.get? i = some s' →
    s'.id = s.id ∧ s'.dependsOn = s.dependsOn ∧ statusLe s.status s'.status = true

/-- `chainLe b ts f`: the snapshots `ts` lead from `b` to `f` in `stepsLe`
steps, and `f` is the last snapshot (or `b` itself when there is none). -/
def chainLe : List WStep → List (List WStep) → List WStep → Prop
  | b, [], f => b = f
  | b, t :: ts, f => stepsLe b t ∧ chainLe t ts f

/-- Every dependency id of `s` that resolves in `l` names a SUCCESS step. -/
def DepsOk (l : List WStep) (s : WStep) : Prop :=
  ∀ d ∈ s.dependsOn, ∀ dep, findStep l d = some dep → dep.status = .success

/-- The claim C1 invariant: every RUNNING step has all its resolvable
dependencies SUCCESS. -/
def Inv (l : List WStep) : Prop :=
  ∀ s ∈ l, s.status = .running → DepsOk l s

end DF

/-! ## Theorems -/

namespace DF

/-! ### Association-list (Python dict) lemmas -/

theorem alistGet_alistSet_self {α : Type} (m : List (String × α)) (k : String) (v : α) :
    alistGet (alistSet m k v) k = some v := by
  induction m with
  | nil => simp [alistSet, alistGet]
  | cons e rest ih =>
      obtain ⟨k', v'⟩ := e
      by_cases h : k' = k
      · simp [alistSet, h, alistGet]
      · simp [alistSet, h, alistGet, ih]

theorem alistGet_alistSet_ne {α : Type} (m : List (String × α)) (k : String) (v : α)
    (k' : String) (h : k ≠ k') : alistGet (alistSet m k v) k' = alistGet m k' := by
  induction m with
  | nil => simp [alistSet, alistGet, h]
  | cons e rest ih =>
      obtain ⟨k0, v0⟩ := e
      by_cases h0 : k0 = k
      · subst h0
        simp [alistSet, alistGet, h]
      · simp [alistSet, h0, alistGet, ih]

theorem isSome_alistGet_alistSet {α : Type} (m : List (String × α)) (k : String) (v : α)
    (k' : String) (h : (alistGet m k').isSome = true) :
    (alistGet (alistSet m k v) k').isSome = true := by
  by_cases hk : k = k'
  · subst hk
    simp [alistGet_alistSet_self]
  · rw [alistGet_alistSet_ne m k v k' hk]
    exact h

theorem alistUpdate_cons {α : Type} (m : List (String × α)) (e : String × α)
    (rest : List (String × α)) :
    alistUpdate m (e :: rest) = alistUpdate (alistSet m e.1 e.2) rest := rfl

theorem isSome_alistGet_alistUpdate {α : Type} (m other : List (String × α)) (k : String)
    (h : (alistGet m k).isSome = true) :
    (alistGet (alistUpdate m other) k).isSome = true := by
  induction other generalizing m with
  | nil => exact h
  | cons e rest ih =>
      rw [alistUpdate_cons]
      exact ih _ (isSome_alistGet_alistSet _ _ _ _ h)

theorem alistGet_eq_none_iff {α : Type} (m : List (String × α)) (k : String) :
    alistGet m k = Option.none ↔ k ∉ m.map Prod.fst := by
  induction m with
  | nil => simp [alistGet]
  | cons e rest ih =>
      obtain ⟨k0, v0⟩ := e
      by_cases h : k0 = k
      · simp [alistGet, h]
      · simp [alistGet, h, ih]
        intro hk
        exact fun hh => h hh.symm

theorem alistGet_alistUpdate_of_none {α : Type} (m other : List (String × α)) (k : String)
    (h : alistGet other k = Option.none) :
    alistGet (alistUpdate m other) k = alistGet m k := by
  induction other generalizing m with
  | nil => rfl
  | cons e rest ih =>
      obtain ⟨k0, v0⟩ := e
      have h0 : ¬ k0 = k := by
        intro hk
        simp [alistGet, hk] at h
      have hrest : alistGet rest k = Option.none := by
        simpa [alistGet, h0] using h
      rw [alistUpdate_cons]
      rw [ih _ hrest]
      exact alistGet_alistSet_ne _ _ _ _ h0

theorem alistGet_alistUpdate_of_some {α : Type} (m other : List (String × α)) (k : String)
    (v : α) (hnd : (other.map Prod.fst).Nodup) (h : alistGet other k = some v) :
    alistGet (alistUpdate m other) k = some v := by
  induction other generalizing m with
  | nil => simp [alistGet] at h
  | cons e rest ih =>
      obtain ⟨k0, v0⟩ := e
      rw [alistUpdate_cons]
      by_cases h0 : k0 = k
      · subst h0
        have hv : v0 = v := by simpa [alistGet] using h
        subst hv
        have hnd' : (k0 :: rest.map Prod.fst).Nodup := by simpa using hnd
        have hnotin : k0 ∉ rest.map Prod.fst := (List.nodup_cons.mp hnd').1
        have hnone : alistGet rest k0 = Option.none := (alistGet_eq_none_iff rest k0).mpr hnotin
        rw [alistGet_alistUpdate_of_none _ _ _ hnone]
        exact alistGet_alistSet_self _ _ _
      · have hnd' : (k0 :: rest.map Prod.fst).Nodup := by simpa using hnd
        have hrest : alistGet rest k = some v := by simpa [alistGet, h0] using h
        exact ih _ (List.nodup_cons.mp hnd').2 hrest

theorem keys_alistSet {α : Type} (m : List (String × α)) (k : String) (v : α) :
    (alistSet m k v).map Prod.fst =
      if k ∈ m.map Prod.fst then m.map Prod.fst else m.map Prod.fst ++ [k] := by
  induction m with
  | nil => simp [alistSet]
  | cons e rest ih =>
      obtain ⟨k0, v0⟩ := e
      by_cases h : k0 = k
      · subst h
        simp [alistSet]
      · have hne : ¬ k = k0 := fun hh => h hh.symm
        simp [alistSet, h, ih, hne]
        by_cases hk : k ∈ rest.map Prod.fst <;> simp [hk, hne]

theorem nodup_keys_alistSet {α : Type} (m : List (String × α)) (k : String) (v : α)
    (h : (m.map Prod.fst).Nodup) : ((alistSet m k v).map Prod.fst).Nodup := by
  rw [keys_alistSet]
  by_cases hk : k ∈ m.map Prod.fst
  · simpa [hk] using h
  · simp only [hk, if_false]
    refine List.Nodup.append h (List.nodup_singleton k) ?_
    simpa [List.disjoint_singleton] using hk

theorem nodup_keys_alistUpdate {α : Type} (m other : List (String × α))
    (h : (m.map Prod.fst).Nodup) : ((alistUpdate m other).map Prod.fst).Nodup := by
  induction other generalizing m with
  | nil => exact h
  | cons e rest ih =>
      rw [alistUpdate_cons]
      exact ih _ (nodup_keys_alistSet _ _ _ h)

/-! ### Configuration-store invariants and the C8 round-trip -/

theorem configDefaults_keys_nodup : (configDefaults.map Prod.fst).Nodup := by
  decide

theorem configReachable_defaultsPresent {c : List (String × PV)}
    (h : ConfigReachable c) : DefaultsPresent c := by
  induction h with
  | load saved => exact fun k hk => isSome_alistGet_alistUpdate _ _ _ hk
  | set k v _ ih => exact fun k' hk => isSome_alistGet_alistSet _ _ _ _ (ih k' hk)
  | resetAll _ _ => exact fun k hk => hk
  | resetKey k _ ih =>
      intro k' hk
      unfold configResetKey
      cases alistGet configDefaults k with
      | none => exact ih k' hk
      | some v => exact isSome_alistGet_alistSet _ _ _ _ (ih k' hk)
  | importCfg cfg merge _ ih =>
      intro k hk
      unfold importConfig
      cases merge with
      | true => exact isSome_alistGet_alistUpdate _ _ _ (ih k hk)
      | false => exact isSome_alistGet_alistUpdate _ _ _ hk

theorem configReachable_nodup {c : List (String × PV)} (h : ConfigReachable c) :
    (c.map Prod.fst).Nodup := by
  induction h with
  | load saved => exact nodup_keys_alistUpdate _ _ configDefaults_keys_nodup
  | set k v _ ih => exact nodup_keys_alistSet _ _ _ ih
  | resetAll _ _ => exact configDefaults_keys_nodup
  | resetKey k _ ih =>
      unfold configResetKey
      cases alistGet configDefaults k with
      | none => exact ih
      | some v => exact nodup_keys_alistSet _ _ _ ih
  | importCfg cfg merge _ ih =>
      unfold importConfig
      cases merge with
      | true => exact nodup_keys_alistUpdate _ _ ih
      | false => exact nodup_keys_alistUpdate _ _ configDefaults_keys_nodup

/-- Claim C8: for every reachable configuration store, exporting and then
importing the export with `merge=False` yields a store whose key/value map is
exactly the exported map. -/
theorem claim_C8_export_import_roundtrip (c : List (String × PV))
    (h : ConfigReachable c) (k : String) :
    alistGet (importConfig c (exportConfig c) false) k = alistGet (exportConfig c) k := by
  have hnd := configReachable_nodup h
  have hdp := configReachable_defaultsPresent h
  show alistGet (alistUpdate configDefaults c) k = alistGet c k
  cases hc : alistGet c k with
  | some v => exact alistGet_alistUpdate_of_some _ _ _ _ hnd hc
  | none =>
      rw [alistGet_alistUpdate_of_none _ _ _ hc]
      cases hd : alistGet configDefaults k with
      | none => rfl
      | some v =>
          have := hdp k (by simp [hd])
          simp [hc] at this

/-- Claim C8 witness: the round-trip identity evaluated on the store obtained
by loading defaults and overriding one entry. -/
theorem claim_C8_export_import_roundtrip_witness :
    alistGet
        (importConfig (configAssign (configLoad []) "app.debug" (PV.bool true))
          (exportConfig (configAssign (configLoad []) "app.debug" (PV.bool true))) false)
        "app.debug"
      = alistGet (exportConfig (configAssign (configLoad []) "app.debug" (PV.bool true)))
          "app.debug" :=
  claim_C8_export_import_roundtrip _
    (ConfigReachable.set "app.debug" (PV.bool true) (ConfigReachable.load [])) "app.debug"

/-! ### Subscriber-notification lemmas and claim C5 -/

theorem runCallbacks_fst (raises : Nat → Bool) (l : List Nat) :
    (runCallbacks raises l).1 = l := by
  induction l with
  | nil => rfl
  | cons cb rest ih => simp [runCallbacks, ih]

theorem runCallbacks_snd (raises : Nat → Bool) (l : List Nat) :
    (runCallbacks raises l).2 = l.filter raises := by
  induction l with
  | nil => rfl
  | cons cb rest ih =>
      by_cases h : raises cb <;> simp [runCallbacks, ih, List.filter_cons, h]

theorem notify_foldl_spec (subs : List (String × List Nat)) (raises : Nat → Bool)
    (ps : List String) (a b : List Nat) :
    ps.foldl
        (fun acc p =>
          let r := runCallbacks raises (alistGetD subs p [])
          (acc.1 ++ r.1, acc.2 ++ r.2))
        (a, b)
      = (a ++ (ps.map (fun p => alistGetD subs p [])).flatten,
         b ++ ((ps.map (fun p => alistGetD subs p [])).flatten).filter raises) := by
  induction ps generalizing a b with
  | nil => simp
  | cons p rest ih =>
      simp only [List.foldl_cons, List.map_cons, List.flatten_cons]
      rw [ih]
      simp [runCallbacks_fst, runCallbacks_snd, List.filter_append, List.append_assoc]

theorem notifySubscribers_fst (subs : List (String × List Nat)) (raises : Nat → Bool)
    (key : String) :
    (notifySubscribers subs raises key).1
      = alistGetD subs key []
          ++ ((wildcardPatterns key).map (fun p => alistGetD subs p [])).flatten := by
  unfold notifySubscribers
  rw [show runCallbacks raises (alistGetD subs key [])
        = ((runCallbacks raises (alistGetD subs key [])).1,
           (runCallbacks raises (alistGetD subs key [])).2) from rfl]
  rw [notify_foldl_spec]
  simp [runCallbacks_fst]

theorem notifySubscribers_snd (subs : List (String × List Nat)) (raises : Nat → Bool)
    (key : String) :
    (notifySubscribers subs raises key).2
      = ((notifySubscribers subs raises key).1).filter raises := by
  unfold notifySubscribers
  rw [show runCallbacks raises (alistGetD subs key [])
        = ((runCallbacks raises (alistGetD subs key [])).1,
           (runCallbacks raises (alistGetD subs key [])).2) from rfl]
  rw [notify_foldl_spec]
  simp [runCallbacks_fst, runCallbacks_snd, List.filter_append]

/-- Claim C5 counterexample: with subscribers on the exact key `a.b.c`
(callback 0), on `a.b.*` (callback 1) and on `a.*` (callback 2), a changing
`set("a.b.c", …)` notifies in the order exact, `a.*`, `a.b.*` — not the
claimed exact, `a.b.*`, `a.*`.  The prefix loop runs shortest-first and also
consults the key's own `a.b.c.*` pattern. -/
theorem claim_C5_counterexample :
    (configSetNotify ⟨[], [("a.b.c", [0]), ("a.b.*", [1]), ("a.*", [2])]⟩
        (fun _ => false) "a.b.c" (PV.int 1) true).2.1 = [0, 2, 1] ∧
    ([0, 2, 1] : List Nat) ≠ [0, 1, 2] ∧
    wildcardPatterns "a.b.c" = ["a.*", "a.b.*", "a.b.c.*"] :=
  ⟨rfl, by decide, rfl⟩

/-- Claim C5 (amended): a changing `set` of key `a.b.c` notifies the exact-key
subscribers first, then the subscribers of the wildcard patterns built from
the key's dot-prefixes in shortest-to-longest order (`a.*`, then `a.b.*`, then
`a.b.c.*`), as listed by `wildcardPatterns`; a raising callback is caught and
logged without preventing the remaining notifications; the bus-level
`config_changed` event is emitted. -/
theorem claim_C5_notify_order (st : ConfigState) (raises : Nat → Bool) (key : String)
    (v : PV) (hchanged : PV.beq ((alistGet st.cfg key).getD PV.none) v = false) :
    (configSetNotify st raises key v true).2.1
        = alistGetD st.subs key []
            ++ ((wildcardPatterns key).map (fun p => alistGetD st.subs p [])).flatten ∧
    (configSetNotify st raises key v true).2.2.1
        = ((configSetNotify st raises key v true).2.1).filter raises ∧
    (configSetNotify st raises key v true).2.2.2 = ["config_changed"] ∧
    (configSetNotify st raises key v true).1.cfg = configAssign st.cfg key v := by
  refine ⟨?_, ?_, ?_, ?_⟩ <;>
    simp [configSetNotify, hchanged, notifySubscribers_fst, notifySubscribers_snd]

/-- Claim C5 amended-theorem witness: a concrete changing `set` with a raising
wildcard subscriber. -/
theorem claim_C5_notify_order_witness :
    (configSetNotify ⟨[], [("a.b.c", [0]), ("a.*", [5])]⟩ (fun cb => cb == 5)
        "a.b.c" (PV.int 1) true).2.1
      = alistGetD [("a.b.c", [0]), ("a.*", [5])] "a.b.c" []
          ++ ((wildcardPatterns "a.b.c").map
              (fun p => alistGetD [("a.b.c", [0]), ("a.*", [5])] p [])).flatten :=
  (claim_C5_notify_order ⟨[], [("a.b.c", [0]), ("a.*", [5])]⟩ (fun cb => cb == 5)
    "a.b.c" (PV.int 1) rfl).1

/-! ### Event-bus lemmas and claim C6 -/

theorem alistGet_mem {α : Type} (m : List (String × α)) (k : String) (v : α)
    (h : alistGet m k = some v) : (k, v) ∈ m := by
  induction m with
  | nil => simp [alistGet] at h
  | cons e rest ih =>
      obtain ⟨k0, v0⟩ := e
      by_cases hk : k0 = k
      · subst hk
        simp [alistGet] at h
        simp [h]
      · simp [alistGet, hk] at h
        exact List.mem_cons_of_mem _ (ih h)

theorem not_mem_alistGetD (m : List (String × List Nat)) (k : String) (cb : Nat)
    (h : ∀ e ∈ m, cb ∉ e.2) : cb ∉ alistGetD m k [] := by
  unfold alistGetD
  cases hg : alistGet m k with
  | none => simp
  | some l => exact h (k, l) (alistGet_mem m k l hg)

theorem not_mem_wildFold (m : List (String × List Nat)) (name : String) (cb : Nat)
    (acc : List Nat) (h : ∀ e ∈ m, cb ∉ e.2) (hacc : cb ∉ acc) :
    cb ∉ m.foldl (fun acc e => if matchesPattern name e.1 then acc ++ e.2 else acc) acc := by
  induction m generalizing acc with
  | nil => exact hacc
  | cons e rest ih =>
      simp only [List.foldl_cons]
      refine ih _ (fun e' he' => h e' (List.mem_cons_of_mem _ he')) ?_
      by_cases hm : matchesPattern name e.1
      · simp only [hm, if_true]
        intro hc
        rcases List.mem_append.mp hc with hc | hc
        · exact hacc hc
        · exact h e (List.mem_cons_self _ _) hc
      · simpa [hm] using hacc

theorem alistPop_alistAppend_fst (m : List (String × List Nat)) (k : String) (cb : Nat) :
    (alistPop (alistAppend m k cb) k).1 = alistGetD m k [] ++ [cb] := by
  induction m with
  | nil => simp [alistAppend, alistPop, alistGetD, alistGet]
  | cons e rest ih =>
      obtain ⟨k0, l0⟩ := e
      by_cases hk : k0 = k
      · subst hk
        simp [alistAppend, alistPop, alistGetD, alistGet]
      · simp [alistAppend, hk, alistPop, alistGetD, alistGet, ih]

theorem alistPop_alistAppend_snd (m : List (String × List Nat)) (k : String) (cb : Nat) :
    ∀ e ∈ (alistPop (alistAppend m k cb) k).2, e ∈ m := by
  induction m with
  | nil =>
      intro e he
      simp [alistAppend, alistPop] at he
  | cons e0 rest ih =>
      obtain ⟨k0, l0⟩ := e0
      intro e he
      by_cases hk : k0 = k
      · subst hk
        simp [alistAppend, alistPop] at he
        exact List.mem_cons_of_mem _ he
      · simp [alistAppend, hk, alistPop] at he
        rcases he with he | he
        · simp [he]
        · exact List.mem_cons_of_mem _ (ih e he)

theorem alistPop_snd_sub (m : List (String × List Nat)) (k : String) :
    ∀ e ∈ (alistPop m k).2, e ∈ m := by
  induction m with
  | nil =>
      intro e he
      cases he
  | cons e0 rest ih =>
      obtain ⟨k0, l0⟩ := e0
      intro e he
      by_cases hk : k0 = k
      · subst hk
        simp only [alistPop, if_pos rfl] at he
        exact List.mem_cons_of_mem _ he
      · simp only [alistPop, hk, if_false, ite_false] at he
        rcases List.mem_cons.mp he with he | he
        · simp [he]
        · exact List.mem_cons_of_mem _ (ih e he)

theorem not_mem_alistPop_fst (m : List (String × List Nat)) (k : String) (cb : Nat)
    (h : ∀ e ∈ m, cb ∉ e.2) : cb ∉ (alistPop m k).1 := by
  induction m with
  | nil => simp [alistPop]
  | cons e rest ih =>
      obtain ⟨k0, l0⟩ := e
      by_cases hk : k0 = k
      · subst hk
        simpa [alistPop] using h (k0, l0) (List.mem_cons_self _ _)
      · simp only [alistPop, hk, if_false]
        exact ih (fun e' he' => h e' (List.mem_cons_of_mem _ he'))

/-- Claim C6: a callback registered with `subscribe_once(x, cb)` (and not
otherwise subscribed) is invoked exactly once by a first emission of `x` —
independently of whether it raises — is absent from the one-shot table
afterwards, and is not invoked at all by a second emission. -/
theorem busDispatch_count_zero (b : BusState) (raises' : Nat → Bool) (y : String)
    (cb : Nat) (hfree : cbFree b cb) :
    ((busDispatch b raises' y).2.1).count cb = 0 ∧ cbFree ((busDispatch b raises' y).1) cb := by
  obtain ⟨hs, ho⟩ := hfree
  constructor
  · show ((runCallbacks raises' _).1).count cb = 0
    rw [runCallbacks_fst]
    rw [List.count_append, List.count_append]
    rw [List.count_eq_zero.mpr (not_mem_alistGetD b.subs y cb hs),
        List.count_eq_zero.mpr (not_mem_wildFold b.subs y cb [] hs (by simp)),
        List.count_eq_zero.mpr (not_mem_alistPop_fst b.once y cb ho)]
  · refine ⟨hs, ?_⟩
    intro e he
    exact ho e (alistPop_snd_sub b.once y e he)

/-- Claim C6: a callback registered with `subscribe_once(x, cb)` (and not
otherwise subscribed) is invoked exactly once by the next emission of `x` —
independently of whether it raises, since the one-shot entry is popped before
any dispatch — and afterwards it is registered nowhere, so NO later emission
of any event invokes it again: emissions from a `cb`-free bus invoke `cb`
zero times and leave the bus `cb`-free. -/
theorem claim_C6_subscribe_once (st : BusState) (raises : Nat → Bool)
    (cb : Nat) (x : String) (hfree : cbFree st cb) :
    ((busDispatch (busSubscribeOnce st x cb) raises x).2.1).count cb = 1 ∧
    cbFree ((busDispatch (busSubscribeOnce st x cb) raises x).1) cb ∧
    (∀ (b : BusState) (raises' : Nat → Bool) (y : String), cbFree b cb →
      ((busDispatch b raises' y).2.1).count cb = 0 ∧
      cbFree ((busDispatch b raises' y).1) cb) := by
  obtain ⟨hs, ho⟩ := hfree
  have honce1 : ∀ e ∈ ((busDispatch (busSubscribeOnce st x cb) raises x).1).once, cb ∉ e.2 := by
    intro e he
    exact ho e (alistPop_alistAppend_snd st.once x cb e he)
  refine ⟨?_, ⟨hs, honce1⟩, fun b raises' y hf => busDispatch_count_zero b raises' y cb hf⟩
  show ((runCallbacks raises _).1).count cb = 1
  rw [runCallbacks_fst]
  rw [show (busSubscribeOnce st x cb).subs = st.subs from rfl,
      show (busSubscribeOnce st x cb).once = alistAppend st.once x cb from rfl]
  rw [List.count_append, List.count_append]
  have h1 : (alistGetD st.subs x []).count cb = 0 :=
    List.count_eq_zero.mpr (not_mem_alistGetD st.subs x cb hs)
  have h2 : (st.subs.foldl
      (fun acc e => if matchesPattern x e.1 then acc ++ e.2 else acc) []).count cb = 0 :=
    List.count_eq_zero.mpr (not_mem_wildFold st.subs x cb [] hs (by simp))
  have h3 : ((alistPop (alistAppend st.once x cb) x).1).count cb = 1 := by
    rw [alistPop_alistAppend_fst]
    rw [List.count_append]
    rw [List.count_eq_zero.mpr (not_mem_alistGetD st.once x cb ho)]
    simp
  rw [h1, h2, h3]

/-- Claim C6 witness: a fresh bus, a one-shot raising callback, two emissions
of `"x"`. -/
theorem claim_C6_subscribe_once_witness :
    ((busDispatch (busSubscribeOnce ⟨[], []⟩ "x" 0) (fun _ => true) "x").2.1).count 0 = 1 ∧
    ((busDispatch ((busDispatch (busSubscribeOnce ⟨[], []⟩ "x" 0) (fun _ => true) "x").1)
        (fun _ => true) "x").2.1).count 0 = 0 := by
  have h := claim_C6_subscribe_once ⟨[], []⟩ (fun _ => true) 0 "x"
    ⟨(fun _ he => nomatch he), (fun _ he => nomatch he)⟩
  exact ⟨h.1, (h.2.2 _ (fun _ => true) "x" h.2.1).1⟩

/-- Claim C9 counterexample: the claim predicts that a value parseable as a
float but not as an integer, such as `"1e5"`, becomes a float.  In the code the
float conversion is only attempted when the value contains a dot, so
`_parse_value("1e5")` keeps the string. -/
theorem claim_C9_counterexample :
    parseValue "1e5" = PV.str "1e5" ∧ (parseValue "1e5").isFloatVal = false :=
  ⟨rfl, rfl⟩

/-- Claim C9 (amended): value coercion checks the case-insensitive boolean
literals first; the numeric conversion then depends on whether the value
contains a dot — a dotted value is parsed as a float and a dot-free value as an
integer (so a dot-free float literal such as `"1e5"` is NOT coerced); any
failed conversion keeps the value as a string, and a float result can only
arise from a dotted value. -/
theorem claim_C9_coercion_order (s : String) :
    (boolTrueLits.contains (lowerStr s) = true → parseValue s = .bool true) ∧
    (boolTrueLits.contains (lowerStr s) = false →
      boolFalseLits.contains (lowerStr s) = true → parseValue s = .bool false) ∧
    (boolTrueLits.contains (lowerStr s) = false →
      boolFalseLits.contains (lowerStr s) = false → strContains s '.' = true →
      ∀ lit, pyFloatParse s = some lit → parseValue s = .float lit) ∧
    (boolTrueLits.contains (lowerStr s) = false →
      boolFalseLits.contains (lowerStr s) = false → strContains s '.' = false →
      ∀ n, pyIntParse s = some n → parseValue s = .int n) ∧
    (boolTrueLits.contains (lowerStr s) = false →
      boolFalseLits.contains (lowerStr s) = false → strContains s '.' = true →
      pyFloatParse s = Option.none → parseValue s = .str s) ∧
    (boolTrueLits.contains (lowerStr s) = false →
      boolFalseLits.contains (lowerStr s) = false → strContains s '.' = false →
      pyIntParse s = Option.none → parseValue s = .str s) ∧
    ((parseValue s).isFloatVal = true → strContains s '.' = true) := by
  refine ⟨?_, ?_, ?_, ?_, ?_, ?_, ?_⟩
  · intro h1
    have m1 : lowerStr s ∈ boolTrueLits := by simpa using h1
    simp [parseValue, m1]
  · intro h1 h2
    have m1 : lowerStr s ∉ boolTrueLits := by simpa using h1
    have m2 : lowerStr s ∈ boolFalseLits := by simpa using h2
    simp [parseValue, m1, m2]
  · intro h1 h2 h3 lit h4
    have m1 : lowerStr s ∉ boolTrueLits := by simpa using h1
    have m2 : lowerStr s ∉ boolFalseLits := by simpa using h2
    simp [parseValue, m1, m2, h3, h4]
  · intro h1 h2 h3 n h4
    have m1 : lowerStr s ∉ boolTrueLits := by simpa using h1
    have m2 : lowerStr s ∉ boolFalseLits := by simpa using h2
    simp [parseValue, m1, m2, h3, h4]
  · intro h1 h2 h3 h4
    have m1 : lowerStr s ∉ boolTrueLits := by simpa using h1
    have m2 : lowerStr s ∉ boolFalseLits := by simpa using h2
    simp [parseValue, m1, m2, h3, h4]
  · intro h1 h2 h3 h4
    have m1 : lowerStr s ∉ boolTrueLits := by simpa using h1
    have m2 : lowerStr s ∉ boolFalseLits := by simpa using h2
    simp [parseValue, m1, m2, h3, h4]
  · intro h
    unfold parseValue at h
    by_cases m1 : lowerStr s ∈ boolTrueLits
    · simp [m1, PV.isFloatVal] at h
    · by_cases m2 : lowerStr s ∈ boolFalseLits
      · simp [m1, m2, PV.isFloatVal] at h
      · by_cases h3 : strContains s '.' = true
        · exact h3
        · simp [m1, m2, h3] at h
          rcases hp : pyIntParse s with _ | n <;> simp [hp, PV.isFloatVal] at h

/-- Claim C9 amended-theorem witness: concrete inputs exercising each branch
of the coercion order. -/
theorem claim_C9_coercion_order_witness :
    parseValue "On" = PV.bool true ∧ parseValue "Off" = PV.bool false ∧
    parseValue "-2.5e-3" = PV.float "-2.5e-3" ∧ parseValue "42" = PV.int 42 ∧
    parseValue "1.2.3" = PV.str "1.2.3" ∧ parseValue "1e5" = PV.str "1e5" :=
  ⟨(claim_C9_coercion_order "On").1 (by decide),
   (claim_C9_coercion_order "Off").2.1 (by decide) (by decide),
   (claim_C9_coercion_order "-2.5e-3").2.2.1 (by decide) (by decide) (by decide) "-2.5e-3" rfl,
   (claim_C9_coercion_order "42").2.2.2.1 (by decide) (by decide) (by decide) 42 rfl,
   (claim_C9_coercion_order "1.2.3").2.2.2.2.1 (by decide) (by decide) (by decide) rfl,
   (claim_C9_coercion_order "1e5").2.2.2.2.2.1 (by decide) (by decide) (by decide) rfl⟩

/-! ### Execution-engine claims C2 and C7 -/

theorem executeSync_history (st : EngineState) (r : ExecRecord) :
    (executeSync st r).2.history = st.history ++ [(executeSync st r).1] := by
  unfold executeSync
  cases h : execBody st r with
  | ok p =>
      obtain ⟨r', evs⟩ := p
      simp
  | error e => simp

/-- Claim C2: `execute` with `async_exec=False` never propagates an exception
to its caller — the model's synchronous path is a total function on records.
An unknown command and a raising handler both yield a failed record with the
error message captured and `command_failed` emitted; a successful handler
yields a completed record with `command_completed`; in every case the record
is appended to the history by the finally-block. -/
theorem claim_C2_execute_never_raises (st : EngineState) (execId command : String)
    (params : List (String × PV)) :
    (alistGet st.handlers command = Option.none →
      (executeCmd st execId command params).1.status = "failed" ∧
      (executeCmd st execId command params).1.error
          = some ("Unknown command: " ++ command) ∧
      (executeCmd st execId command params).2.events = st.events ++ ["command_failed"]) ∧
    (∀ h : Handler, alistGet st.handlers command = some h →
      (∀ e, h ⟨execId, command, params⟩ = .error e →
        (executeCmd st execId command params).1.status = "failed" ∧
        (executeCmd st execId command params).1.error = some e ∧
        (executeCmd st execId command params).2.events = st.events ++ ["command_failed"]) ∧
      (∀ v, h ⟨execId, command, params⟩ = .ok v →
        (executeCmd st execId command params).1.status = "completed" ∧
        (executeCmd st execId command params).1.result = some v ∧
        (executeCmd st execId command params).2.events
            = st.events ++ ["command_completed"])) ∧
    (executeCmd st execId command params).2.history
      = st.history ++ [(executeCmd st execId command params).1] := by
  refine ⟨?_, ?_, executeSync_history _ _⟩
  · intro hnone
    unfold executeCmd executeSync execBody
    simp [hnone]
  · intro h hsome
    constructor
    · intro e he
      unfold executeCmd executeSync execBody
      simp [hsome, he]
    · intro v hv
      unfold executeCmd executeSync execBody
      simp [hsome, hv]

/-- Claim C2 witness: a raising handler, a successful handler, and an unknown
command on a concrete engine. -/
theorem claim_C2_execute_never_raises_witness :
    ((executeCmd ⟨[("boom", fun _ => Except.error "kaboom")], [], []⟩
        "id1" "boom" []).1.status = "failed" ∧
      (executeCmd ⟨[("boom", fun _ => Except.error "kaboom")], [], []⟩
        "id1" "boom" []).1.error = some "kaboom" ∧
      (executeCmd ⟨[("boom", fun _ => Except.error "kaboom")], [], []⟩
        "id1" "boom" []).2.events = [] ++ ["command_failed"]) ∧
    ((executeCmd ⟨[("boom", fun _ => Except.error "kaboom")], [], []⟩
        "id1" "nope" []).1.status = "failed" ∧
      (executeCmd ⟨[("boom", fun _ => Except.error "kaboom")], [], []⟩
        "id1" "nope" []).1.error = some ("Unknown command: " ++ "nope") ∧
      (executeCmd ⟨[("boom", fun _ => Except.error "kaboom")], [], []⟩
        "id1" "nope" []).2.events = [] ++ ["command_failed"]) :=
  ⟨((claim_C2_execute_never_raises ⟨[("boom", fun _ => Except.error "kaboom")], [], []⟩
      "id1" "boom" []).2.1 (fun _ => Except.error "kaboom") rfl).1 "kaboom" rfl,
   (claim_C2_execute_never_raises ⟨[("boom", fun _ => Except.error "kaboom")], [], []⟩
      "id1" "nope" []).1 rfl⟩

/-- Claim C7 counterexample: the execution history of the engine is not
bounded by any cap — after `n` executions it holds exactly `n` records, for
every `n`, so no fixed cap exists. -/
theorem claim_C7_counterexample :
    (∀ n : Nat, ((execN ⟨[], [], []⟩ "echo" n).history).length = n) ∧
    ¬ ∃ cap : Nat, ∀ n : Nat, ((execN ⟨[], [], []⟩ "echo" n).history).length ≤ cap := by
  have hlen : ∀ n : Nat, ((execN ⟨[], [], []⟩ "echo" n).history).length = n := by
    intro n
    induction n with
    | zero => rfl
    | succ n ih =>
        show ((executeSync (execN ⟨[], [], []⟩ "echo" n) _).2.history).length = n + 1
        rw [executeSync_history]
        simp [ih]
  refine ⟨hlen, ?_⟩
  rintro ⟨cap, hcap⟩
  have h1 := hcap (cap + 1)
  rw [hlen] at h1
  omega

/-- Claim C7 (amended): the history is append-only — each synchronous
execution appends exactly its own record — but unbounded (no cap is applied
anywhere in the engine); `get_history(limit)` with `limit ≥ 1` returns the
most recent `min limit n` records in order, as a suffix of the history. -/
theorem claim_C7_append_only_history (st : EngineState) (r : ExecRecord)
    (h : List ExecRecord) (limit : Nat) (hl : 1 ≤ limit) :
    (executeSync st r).2.history = st.history ++ [(executeSync st r).1] ∧
    getHistory h limit <:+ h ∧
    (getHistory h limit).length = min limit h.length := by
  have hne : ¬ limit = 0 := by omega
  refine ⟨executeSync_history st r, ?_, ?_⟩
  · unfold getHistory
    simp only [hne, if_false]
    exact List.drop_suffix _ _
  · unfold getHistory
    simp only [hne, if_false, List.length_drop]
    omega

/-- Claim C7 amended-theorem witness: a concrete record and history with
`limit = 2`. -/
theorem claim_C7_append_only_history_witness :
    (executeSync ⟨[], [], []⟩
        { id := "a", command := "c", params := [], status := "pending" }).2.history
      = [] ++ [(executeSync ⟨[], [], []⟩
          { id := "a", command := "c", params := [], status := "pending" }).1] ∧
    getHistory [{ id := "a", command := "c", params := [], status := "done" }] 2
      <:+ [{ id := "a", command := "c", params := [], status := "done" }] ∧
    (getHistory [{ id := "a", command := "c", params := [], status := "done" }] 2).length
      = min 2 [({ id := "a", command := "c", params := [], status := "done" } : ExecRecord)].length :=
  claim_C7_append_only_history ⟨[], [], []⟩
    { id := "a", command := "c", params := [], status := "pending" }
    [{ id := "a", command := "c", params := [], status := "done" }] 2 (by omega)

/-! ### Workflow parameter interpolation (claim C10) -/

theorem interpolateParams_foldl_acc (params vars results : List (String × PV))
    (acc : List (String × PV)) :
    params.foldl
        (fun acc kv =>
          match kv.2 with
          | .str s => acc ++ [(kv.1, PV.str (interpolateStr vars results s))]
          | v => acc ++ [(kv.1, v)])
        acc
      = acc ++ params.map (fun kv =>
          match kv.2 with
          | PV.str s => (kv.1, PV.str (interpolateStr vars results s))
          | v => (kv.1, v)) := by
  induction params generalizing acc with
  | nil => simp
  | cons kv rest ih =>
      obtain ⟨k, v⟩ := kv
      cases v <;> simp [List.foldl_cons, ih, List.append_assoc]

/-- Claim C10: interpolation rewrites exactly the top-level string parameter
values — the output is the pointwise image of the params dict where a string
value receives the placeholder substitutions and every non-string value
(numbers, booleans, lists, nested dicts, strings nested inside them) is passed
through unchanged. -/
theorem claim_C10_interpolation (params vars results : List (String × PV)) :
    interpolateParams params vars results
      = params.map (fun kv =>
          match kv.2 with
          | PV.str s => (kv.1, PV.str (interpolateStr vars results s))
          | v => (kv.1, v)) ∧
    (∀ kv ∈ params, kv.2.isStrVal = false →
      kv ∈ interpolateParams params vars results) ∧
    (∀ k s, (k, PV.str s) ∈ params →
      (k, PV.str (interpolateStr vars results s)) ∈ interpolateParams params vars results) := by
  have hmap : interpolateParams params vars results
      = params.map (fun kv =>
          match kv.2 with
          | PV.str s => (kv.1, PV.str (interpolateStr vars results s))
          | v => (kv.1, v)) := by
    unfold interpolateParams
    simpa using interpolateParams_foldl_acc params vars results []
  refine ⟨hmap, ?_, ?_⟩
  · intro kv hkv hstr
    rw [hmap]
    have hfix : (fun kv =>
        match kv.2 with
        | PV.str s => (kv.1, PV.str (interpolateStr vars results s))
        | v => (kv.1, v) : String × PV → String × PV) kv = kv := by
      obtain ⟨k, v⟩ := kv
      cases v <;> simp_all [PV.isStrVal]
    exact hfix ▸ List.mem_map_of_mem _ hkv
  · intro k s hks
    rw [hmap]
    exact List.mem_map_of_mem _ hks

/-- Claim C10 witness: a params dict with one placeholder string and one
integer, evaluated concretely. -/
theorem claim_C10_interpolation_witness :
    ("b", PV.int 3)
        ∈ interpolateParams [("a", PV.str "v=$\x7bv\x7d"), ("b", PV.int 3)]
            [("v", PV.int 7)] [] ∧
    ("a", PV.str (interpolateStr [("v", PV.int 7)] [] "v=$\x7bv\x7d"))
        ∈ interpolateParams [("a", PV.str "v=$\x7bv\x7d"), ("b", PV.int 3)]
            [("v", PV.int 7)] [] :=
  ⟨(claim_C10_interpolation [("a", PV.str "v=$\x7bv\x7d"), ("b", PV.int 3)]
        [("v", PV.int 7)] []).2.1 ("b", PV.int 3)
      (List.mem_cons_of_mem _ (List.mem_cons_self _ _)) rfl,
   (claim_C10_interpolation [("a", PV.str "v=$\x7bv\x7d"), ("b", PV.int 3)]
        [("v", PV.int 7)] []).2.2 "a" "v=$\x7bv\x7d" (List.mem_cons_self _ _)⟩

/-! ### Workflow run aliasing (claim C3) and the condition-skip path (claim C4) -/

/-- Claim C3 fails on the code: `WorkflowRun.__init__` stores the registered
definition object and resets ITS step objects in place — steps are not cloned
into fresh runtime state.  Running the same single-step workflow twice under
an engine whose results differ between calls: after the first run the run's
recorded step state is `(SUCCESS, 0)`; re-running the workflow rewrites the
shared step objects, so reading the FIRST run's steps afterwards yields
`(SUCCESS, 1)` — its recorded result has been changed by the second run. -/
theorem claim_C3_shared_step_state :
    (runViewSteps (runWorkflowShared demoCountOracle demoRegistry "r1" []) "r1").map
        (fun s => (s.status, s.result)) = [(.success, PV.int 0)] ∧
    (runViewSteps (runWorkflowShared demoCountOracle
        (runWorkflowShared demoCountOracle demoRegistry "r1" []) "r2" []) "r1").map
        (fun s => (s.status, s.result)) = [(.success, PV.int 1)] ∧
    PV.int 0 ≠ PV.int 1 :=
  ⟨rfl, rfl, by simp⟩

/-- Claim C4 counterexample: a step whose condition evaluates false is NOT
marked SKIPPED directly from PENDING — `_execute_step` assigns RUNNING before
the condition check, so the trace of step statuses is `[running]` then
`[skipped]`; the command is indeed never invoked (no engine calls). -/
theorem claim_C4_counterexample :
    ((executeRun demoCondFalseOracle (initRun [demoStepCond] [] [] 0)).2.map
        (fun st => st.map (·.status))) = [[.running], [.skipped]] ∧
    (executeRun demoCondFalseOracle (initRun [demoStepCond] [] [] 0)).1.calls = [] :=
  ⟨rfl, rfl⟩

/-! ### The one-way status order and the pointwise evolution order -/

theorem statusLe_refl (a : StepStatus) : statusLe a a = true := by
  cases a <;> rfl

theorem statusLe_trans (a b c : StepStatus) (h1 : statusLe a b = true)
    (h2 : statusLe b c = true) : statusLe a c = true := by
  cases a <;> cases b <;> cases c <;> simp_all [statusLe]

theorem statusLe_of_success (b : StepStatus) (h : statusLe .success b = true) :
    b = .success := by
  cases b <;> simp_all [statusLe]

theorem stepsLe_refl (l : List WStep) : stepsLe l l := by
  refine ⟨rfl, ?_⟩
  intro i s s' h1 h2
  rw [h1] at h2
  cases h2
  exact ⟨rfl, rfl, statusLe_refl _⟩

theorem get?_isSome_of_lt {α : Type} (l : List α) (i : Nat) (h : i < l.length) :
    ∃ a, l.get? i = some a := by
  cases hg : l.get? i with
  | none =>
      rw [List.get?_eq_none] at hg
      omega
  | some a => exact ⟨a, rfl⟩

theorem lt_of_get?_eq_some {α : Type} (l : List α) (i : Nat) (a : α)
    (h : l.get? i = some a) : i < l.length := by
  by_contra hlt
  rw [List.get?_eq_none.mpr (by omega)] at h
  cases h

theorem stepsLe_trans (a b c : List WStep) (h1 : stepsLe a b) (h2 : stepsLe b c) :
    stepsLe a c := by
  refine ⟨h1.1.trans h2.1, ?_⟩
  intro i s s' hs hs'
  have hi : i < b.length := by
    have h0 := lt_of_get?_eq_some a i s hs
    have hlen := h1.1
    omega
  obtain ⟨m, hm⟩ := get?_isSome_of_lt b i hi
  obtain ⟨hid1, hdep1, hst1⟩ := h1.2 i s m hs hm
  obtain ⟨hid2, hdep2, hst2⟩ := h2.2 i m s' hm hs'
  exact ⟨hid2.trans hid1, hdep2.trans hdep1, statusLe_trans _ _ _ hst1 hst2⟩

/-! ### `updAt`, `bulkSkip`, `resetSteps` positional lemmas -/

theorem updAt_length (l : List WStep) (i : Nat) (f : WStep → WStep) :
    (updAt l i f).length = l.length := by
  induction l generalizing i with
  | nil => rfl
  | cons s rest ih =>
      cases i with
      | zero => rfl
      | succ n => simp [updAt, ih]

theorem updAt_get?_self (l : List WStep) (i : Nat) (f : WStep → WStep) :
    (updAt l i f).get? i = (l.get? i).map f := by
  induction l generalizing i with
  | nil => cases i <;> rfl
  | cons s rest ih =>
      cases i with
      | zero => rfl
      | succ n => simpa [updAt] using ih n

theorem updAt_get?_ne (l : List WStep) (i : Nat) (f : WStep → WStep) (j : Nat)
    (h : j ≠ i) : (updAt l i f).get? j = l.get? j := by
  induction l generalizing i j with
  | nil => cases i <;> rfl
  | cons s rest ih =>
      cases i with
      | zero =>
          cases j with
          | zero => exact absurd rfl h
          | succ m => rfl
      | succ n =>
          cases j with
          | zero => rfl
          | succ m => simpa [updAt] using ih n m (fun hh => h (by omega))

theorem stepsLe_updAt (l : List WStep) (i : Nat) (f : WStep → WStep)
    (hid : ∀ s, (f s).id = s.id) (hdep : ∀ s, (f s).dependsOn = s.dependsOn)
    (hstat : ∀ s, l.get? i = some s → statusLe s.status (f s).status = true) :
    stepsLe l (updAt l i f) := by
  refine ⟨(updAt_length l i f).symm, ?_⟩
  intro j s s' hs hs'
  by_cases hj : j = i
  · subst hj
    rw [updAt_get?_self, hs] at hs'
    cases hs'
    exact ⟨hid s, hdep s, hstat s hs⟩
  · rw [updAt_get?_ne l i f j hj, hs] at hs'
    cases hs'
    exact ⟨rfl, rfl, statusLe_refl _⟩

theorem bulkSkip_get? (l : List WStep) (j : Nat) :
    (bulkSkip l).get? j
      = (l.get? j).map (fun s =>
          if s.status == StepStatus.pending then { s with status := .skipped } else s) := by
  unfold bulkSkip
  exact List.get?_map _ _ _

theorem stepsLe_bulkSkip (l : List WStep) : stepsLe l (bulkSkip l) := by
  refine ⟨by simp [bulkSkip], ?_⟩
  intro i s s' hs hs'
  rw [bulkSkip_get?, hs] at hs'
  cases hs'
  by_cases hp : s.status = .pending
  · simp [hp, statusLe]
  · have : (s.status == StepStatus.pending) = false := by
      simpa using hp
    simp [this, statusLe_refl]

theorem resetSteps_get? (wf : List WStep) (i : Nat) :
    (resetSteps wf).get? i
      = (wf.get? i).map (fun s =>
          { s with status := .pending, result := PV.none, error := Option.none }) := by
  unfold resetSteps
  exact List.get?_map _ _ _

/-! ### Chains of step-list snapshots -/

theorem chainLe_append (b m f : List WStep) (t1 t2 : List (List WStep))
    (h1 : chainLe b t1 m) (h2 : chainLe m t2 f) : chainLe b (t1 ++ t2) f := by
  induction t1 generalizing b with
  | nil =>
      cases h1
      simpa using h2
  | cons t ts ih => exact ⟨h1.1, ih t h1.2⟩

theorem chainLe_le (b : List WStep) (ts : List (List WStep)) (f : List WStep)
    (h : chainLe b ts f) : stepsLe b f := by
  induction ts generalizing b with
  | nil => cases h; exact stepsLe_refl _
  | cons t rest ih => exact stepsLe_trans _ _ _ h.1 (ih t h.2)

theorem chainLe_mem_le (b : List WStep) (ts : List (List WStep)) (f : List WStep)
    (h : chainLe b ts f) (t : List WStep) (hm : t ∈ ts) :
    stepsLe b t ∧ stepsLe t f := by
  induction ts generalizing b with
  | nil => cases hm
  | cons t0 rest ih =>
      rcases List.mem_cons.mp hm with hm | hm
      · subst hm
        exact ⟨h.1, chainLe_le _ _ _ h.2⟩
      · obtain ⟨ha, hb⟩ := ih t0 h.2 hm
        exact ⟨stepsLe_trans _ _ _ h.1 ha, hb⟩

/-! ### Ready-set lemmas -/

theorem readySteps_nodup (l : List WStep) : (readySteps l).Nodup :=
  (List.nodup_range _).filter _

theorem mem_readySteps (l : List WStep) (i : Nat) :
    i ∈ readySteps l ↔
      ∃ s, l.get? i = some s ∧ s.status = .pending ∧ depsSatisfied l s = true := by
  unfold readySteps
  rw [List.mem_filter, List.mem_range]
  cases hg : l.get? i with
  | none =>
      simp only [hg]
      constructor
      · rintro ⟨-, h⟩
        cases h
      · rintro ⟨s, hs, -⟩
        cases hs
  | some s =>
      have hi : i < l.length := lt_of_get?_eq_some l i s hg
      simp only [hg, hi, true_and]
      constructor
      · intro h
        refine ⟨s, rfl, ?_⟩
        simpa using h
      · rintro ⟨s', hs', h1, h2⟩
        cases hs'
        simp [h1, h2]

/-! ### Shape of `execStep` -/

/-- Every `_execute_step` invocation on a valid position produces exactly two
snapshots: the step set RUNNING, then the same step set SKIPPED (condition
false), SUCCESS (a completed attempt, recording the result) or FAILED
(exhausted attempts, keeping the last error); an out-of-range position is a
no-op (it never arises from a ready list). -/
theorem execStep_cases (o : WfOracle) (rs : WfState) (i : Nat) :
    (rs.steps.get? i = Option.none ∧ execStep o rs i = (rs, [])) ∨
    (∃ st f2, rs.steps.get? i = some st ∧
      ((f2 = fun s => { s with status := StepStatus.skipped }) ∨
       (∃ v, f2 = fun s => { s with status := StepStatus.success, result := v }) ∨
       (∃ e, f2 = fun s => { s with status := StepStatus.failed, error := e })) ∧
      (execStep o rs i).1.steps
        = updAt (updAt rs.steps i (fun s => { s with status := .running })) i f2 ∧
      (execStep o rs i).2
        = [updAt rs.steps i (fun s => { s with status := .running }),
           updAt (updAt rs.steps i (fun s => { s with status := .running })) i f2]) := by
  unfold execStep
  cases hg : rs.steps.get? i with
  | none => exact Or.inl ⟨rfl, rfl⟩
  | some st =>
      refine Or.inr ?_
      by_cases hc : (match st.condition with
                     | some c => !(o.evalCond c rs.vars)
                     | Option.none => false) = true
      · exact ⟨st, _, rfl, Or.inl rfl, by simp [hg, hc], by simp [hg, hc]⟩
      · cases hr : (retryLoop o st.command
            (interpolateParams st.params rs.vars rs.stepResults)
            (st.retryCount + 1) rs.callCount rs.calls Option.none).1 with
        | inl v =>
            exact ⟨st, _, rfl, Or.inr (Or.inl ⟨v, rfl⟩),
              by simp [hg, hc, hr], by simp [hg, hc, hr]⟩
        | inr e =>
            exact ⟨st, _, rfl, Or.inr (Or.inr ⟨e, rfl⟩),
              by simp [hg, hc, hr], by simp [hg, hc, hr]⟩

theorem execStep_get?_ne (o : WfOracle) (rs : WfState) (i j : Nat) (h : j ≠ i) :
    (execStep o rs i).1.steps.get? j = rs.steps.get? j := by
  rcases execStep_cases o rs i with ⟨-, heq⟩ | ⟨st, f2, -, -, hsteps, -⟩
  · rw [heq]
  · rw [hsteps, updAt_get?_ne _ _ _ _ h, updAt_get?_ne _ _ _ _ h]

theorem execStep_trace_get?_ne (o : WfOracle) (rs : WfState) (i j : Nat) (h : j ≠ i) :
    ∀ t ∈ (execStep o rs i).2, t.get? j = rs.steps.get? j := by
  rcases execStep_cases o rs i with ⟨-, heq⟩ | ⟨st, f2, -, -, -, htrace⟩
  · rw [heq]
    intro t ht
    cases ht
  · rw [htrace]
    intro t ht
    rcases List.mem_cons.mp ht with ht | ht
    · subst ht
      exact updAt_get?_ne _ _ _ _ h
    · rcases List.mem_cons.mp ht with ht | ht
      · subst ht
        rw [updAt_get?_ne _ _ _ _ h, updAt_get?_ne _ _ _ _ h]
      · cases ht

theorem execStep_chain (o : WfOracle) (rs : WfState) (i : Nat)
    (hp : ∀ s, rs.steps.get? i = some s → s.status = .pending) :
    chainLe rs.steps (execStep o rs i).2 (execStep o rs i).1.steps := by
  rcases execStep_cases o rs i with ⟨-, heq⟩ | ⟨st, f2, hg, hf2, hsteps, htrace⟩
  · rw [heq]
    exact rfl
  · rw [hsteps, htrace]
    have hidf2 : ∀ s, (f2 s).id = s.id := by
      rcases hf2 with h | ⟨v, h⟩ | ⟨e, h⟩ <;> subst h <;> intro s <;> rfl
    have hdepf2 : ∀ s, (f2 s).dependsOn = s.dependsOn := by
      rcases hf2 with h | ⟨v, h⟩ | ⟨e, h⟩ <;> subst h <;> intro s <;> rfl
    refine ⟨?_, ?_, rfl⟩
    · refine stepsLe_updAt _ _ _ (fun s => rfl) (fun s => rfl) ?_
      intro s hs
      rw [hp s hs]
      rfl
    · refine stepsLe_updAt _ _ _ hidf2 hdepf2 ?_
      intro s hs
      rw [updAt_get?_self, hg] at hs
      cases hs
      rcases hf2 with h | ⟨v, h⟩ | ⟨e, h⟩ <;> subst h <;> rfl

/-! ### Chains over rounds and the whole loop -/

theorem execRound_get?_ne (o : WfOracle) (rs : WfState) (idxs : List Nat) (j : Nat)
    (h : j ∉ idxs) :
    (execRound o rs idxs).1.steps.get? j = rs.steps.get? j ∧
    (∀ t ∈ (execRound o rs idxs).2, t.get? j = rs.steps.get? j) := by
  induction idxs generalizing rs with
  | nil =>
      refine ⟨rfl, ?_⟩
      intro t ht
      cases ht
  | cons i rest ih =>
      have hji : j ≠ i := fun hh => h (hh ▸ List.mem_cons_self _ _)
      have hjr : j ∉ rest := fun hh => h (List.mem_cons_of_mem _ hh)
      have h1 := execStep_get?_ne o rs i j hji
      obtain ⟨h2, h3⟩ := ih (execStep o rs i).1 hjr
      constructor
      · show (execRound o (execStep o rs i).1 rest).1.steps.get? j = rs.steps.get? j
        rw [h2, h1]
      · intro t ht
        have ht' : t ∈ (execStep o rs i).2 ++ (execRound o (execStep o rs i).1 rest).2 := ht
        rcases List.mem_append.mp ht' with hm | hm
        · exact execStep_trace_get?_ne o rs i j hji t hm
        · rw [h3 t hm, h1]

theorem execRound_chain (o : WfOracle) (rs : WfState) (idxs : List Nat)
    (hnd : idxs.Nodup)
    (hp : ∀ i ∈ idxs, ∀ s, rs.steps.get? i = some s → s.status = .pending) :
    chainLe rs.steps (execRound o rs idxs).2 (execRound o rs idxs).1.steps := by
  induction idxs generalizing rs with
  | nil => exact rfl
  | cons i rest ih =>
      obtain ⟨hni, hndr⟩ := List.nodup_cons.mp hnd
      have hchain1 := execStep_chain o rs i (hp i (List.mem_cons_self _ _))
      have hrest : ∀ j ∈ rest, ∀ s,
          (execStep o rs i).1.steps.get? j = some s → s.status = .pending := by
        intro j hj s hs
        have hji : j ≠ i := fun hh => hni (hh ▸ hj)
        rw [execStep_get?_ne o rs i j hji] at hs
        exact hp j (List.mem_cons_of_mem _ hj) s hs
      exact chainLe_append _ _ _ _ _ hchain1 (ih (execStep o rs i).1 hndr hrest)

theorem execLoop_chain (o : WfOracle) (n : Nat) (rs : WfState) :
    chainLe rs.steps (execLoop o n rs).2 (execLoop o n rs).1.steps := by
  induction n generalizing rs with
  | zero => exact rfl
  | succ n ih =>
      unfold execLoop
      split
      · exact rfl
      · split
        next heq => exact ⟨stepsLe_bulkSkip _, rfl⟩
        next i rest heq =>
          refine chainLe_append _ _ _ _ _ ?_ (ih _)
          refine execRound_chain o rs (i :: rest) ?_ ?_
          · rw [← heq]
            exact readySteps_nodup _
          · intro i' hi' s hs
            rw [← heq] at hi'
            obtain ⟨s', hs', hp', -⟩ := (mem_readySteps _ _).mp hi'
            rw [hs] at hs'
            cases hs'
            exact hp'

theorem executeRun_chain (o : WfOracle) (rs : WfState) :
    chainLe rs.steps (executeRun o rs).2 (executeRun o rs).1.steps :=
  execLoop_chain o _ rs

/-! ### The dependency-gating invariant -/

theorem depsSatisfied_iff (l : List WStep) (s : WStep) :
    depsSatisfied l s = true ↔ DepsOk l s := by
  unfold depsSatisfied DepsOk
  rw [List.all_eq_true]
  constructor
  · intro h d hd dep hdep
    have h1 := h d hd
    rw [hdep] at h1
    simpa using h1
  · intro h d hd
    cases hf : findStep l d with
    | none => simp
    | some dep => simpa using h d hd dep hf

theorem findStep_eq_idx (l : List WStep) (d : String) :
    findStep l d = (findStepIdx l d).bind l.get? := by
  induction l with
  | nil => rfl
  | cons s rest ih =>
      by_cases h : s.id = d
      · simp [findStep, findStepIdx, h]
      · simp only [findStep, findStepIdx, h, if_false, ite_false]
        rw [ih]
        cases findStepIdx rest d with
        | none => rfl
        | some n => simp

theorem findStepIdx_lt (l : List WStep) (d : String) (j : Nat)
    (h : findStepIdx l d = some j) : j < l.length := by
  induction l generalizing j with
  | nil => cases h
  | cons s rest ih =>
      by_cases hs : s.id = d
      · simp [findStepIdx, hs] at h
        simp only [List.length_cons]
        omega
      · simp only [findStepIdx, hs, if_false, ite_false, Option.map_eq_some'] at h
        obtain ⟨m, hm, hj⟩ := h
        have := ih m hm
        simp only [List.length_cons]
        omega

theorem findStepIdx_congr (l l' : List WStep) (d : String)
    (hlen : l.length = l'.length)
    (hid : ∀ i a b, l.get? i = some a → l'.get? i = some b → b.id = a.id) :
    findStepIdx l d = findStepIdx l' d := by
  induction l generalizing l' with
  | nil =>
      cases l' with
      | nil => rfl
      | cons s' rest' => simp at hlen
  | cons s rest ih =>
      cases l' with
      | nil => simp at hlen
      | cons s' rest' =>
          have hids : s'.id = s.id := hid 0 s s' rfl rfl
          have hrest := ih rest' (by simpa using hlen)
            (fun i a b ha hb => hid (i + 1) a b (by simpa using ha) (by simpa using hb))
          by_cases h : s.id = d
          · simp [findStepIdx, h, hids]
          · have h' : ¬ s'.id = d := by rw [hids]; exact h
            simp [findStepIdx, h, h', hrest]

/-- Dependency success survives any pointwise change that keeps ids and never
destroys a SUCCESS status. -/
theorem DepsOk_transfer (l l' : List WStep) (s : WStep)
    (hlen : l.length = l'.length)
    (hid : ∀ i a b, l.get? i = some a → l'.get? i = some b → b.id = a.id)
    (hstat : ∀ i a b, l.get? i = some a → l'.get? i = some b →
        a.status = .success → b.status = .success)
    (h : DepsOk l s) : DepsOk l' s := by
  intro d hd dep hdep
  rw [findStep_eq_idx] at hdep
  rw [← findStepIdx_congr l l' d hlen hid] at hdep
  cases hidx : findStepIdx l d with
  | none => rw [hidx] at hdep; cases hdep
  | some p =>
      rw [hidx] at hdep
      have hp : p < l.length := findStepIdx_lt l d p hidx
      obtain ⟨a, ha⟩ := get?_isSome_of_lt l p hp
      have hsucc : a.status = .success := by
        apply h d hd a
        rw [findStep_eq_idx, hidx]
        exact ha
      exact hstat p a dep ha hdep hsucc

/-- `DepsOk` survives an `updAt` whose position held a non-SUCCESS step. -/
theorem DepsOk_updAt (l : List WStep) (i : Nat) (f : WStep → WStep)
    (hid : ∀ s, (f s).id = s.id)
    (hold : ∀ s0, l.get? i = some s0 → s0.status ≠ .success)
    (s : WStep) (h : DepsOk l s) : DepsOk (updAt l i f) s := by
  refine DepsOk_transfer l _ s (updAt_length l i f).symm ?_ ?_ h
  · intro j a b ha hb
    by_cases hj : j = i
    · subst hj
      rw [updAt_get?_self, ha] at hb
      cases hb
      exact hid a
    · rw [updAt_get?_ne _ _ _ _ hj, ha] at hb
      cases hb
      rfl
  · intro j a b ha hb hsa
    by_cases hj : j = i
    · subst hj
      exact absurd hsa (hold a ha)
    · rw [updAt_get?_ne _ _ _ _ hj, ha] at hb
      cases hb
      exact hsa

theorem Inv_updAt (l : List WStep) (i : Nat) (f : WStep → WStep)
    (hid : ∀ s, (f s).id = s.id) (hdep : ∀ s, (f s).dependsOn = s.dependsOn)
    (hold : ∀ s0, l.get? i = some s0 → s0.status ≠ .success)
    (hnew : ∀ s0, l.get? i = some s0 → (f s0).status = .running → DepsOk l s0)
    (hInv : Inv l) : Inv (updAt l i f) := by
  intro s' hs' hrun
  obtain ⟨j, hj⟩ := List.get?_of_mem hs'
  by_cases hji : j = i
  · subst hji
    cases hg : l.get? j with
    | none => rw [updAt_get?_self, hg] at hj; cases hj
    | some a =>
        rw [updAt_get?_self, hg] at hj
        cases hj
        have hda := hnew a hg hrun
        have hda' : DepsOk (updAt l j f) a := DepsOk_updAt l j f hid hold a hda
        intro d hd dep hdep'
        rw [hdep a] at hd
        exact hda' d hd dep hdep'
  · rw [updAt_get?_ne _ _ _ _ hji] at hj
    exact DepsOk_updAt l i f hid hold s' (hInv s' (List.get?_mem hj) hrun)

theorem Inv_bulkSkip (l : List WStep) (h : Inv l) : Inv (bulkSkip l) := by
  have hlen : l.length = (bulkSkip l).length := by simp [bulkSkip]
  have hids : ∀ j a b, l.get? j = some a → (bulkSkip l).get? j = some b → b.id = a.id := by
    intro j a b ha hb
    rw [bulkSkip_get?, ha] at hb
    cases hb
    by_cases hp : a.status == StepStatus.pending <;> simp [hp]
  have hstat : ∀ j a b, l.get? j = some a → (bulkSkip l).get? j = some b →
      a.status = .success → b.status = .success := by
    intro j a b ha hb hsa
    rw [bulkSkip_get?, ha] at hb
    cases hb
    simp [hsa]
  intro s' hs' hrun
  obtain ⟨j, hj⟩ := List.get?_of_mem hs'
  rw [bulkSkip_get?] at hj
  cases hg : l.get? j with
  | none => rw [hg] at hj; cases hj
  | some a =>
      rw [hg] at hj
      cases hj
      by_cases hp : a.status = .pending
      · simp [hp] at hrun
      · simp only [hp, beq_iff_eq, if_false, ite_false] at hrun ⊢
        exact DepsOk_transfer l _ a hlen hids hstat (h a (List.get?_mem hg) hrun)

theorem DepsOk_execStep (o : WfOracle) (rs : WfState) (i : Nat) (s : WStep)
    (hold : ∀ s0, rs.steps.get? i = some s0 → s0.status ≠ .success)
    (h : DepsOk rs.steps s) : DepsOk (execStep o rs i).1.steps s := by
  rcases execStep_cases o rs i with ⟨-, heq⟩ | ⟨st, f2, hg, hf2, hsteps, -⟩
  · rw [heq]
    exact h
  · rw [hsteps]
    have hidf2 : ∀ s0, (f2 s0).id = s0.id := by
      rcases hf2 with hh | ⟨v, hh⟩ | ⟨e, hh⟩ <;> subst hh <;> intro s0 <;> rfl
    refine DepsOk_updAt _ i f2 hidf2 ?_ s
      (DepsOk_updAt rs.steps i (fun s => { s with status := StepStatus.running })
        (fun _ => rfl) hold s h)
    intro s0 hs0
    rw [updAt_get?_self, hg] at hs0
    cases hs0
    simp

theorem execStep_Inv (o : WfOracle) (rs : WfState) (i : Nat)
    (hInv : Inv rs.steps)
    (hready : ∀ s, rs.steps.get? i = some s → s.status = .pending ∧ DepsOk rs.steps s) :
    (∀ t ∈ (execStep o rs i).2, Inv t) ∧ Inv (execStep o rs i).1.steps := by
  rcases execStep_cases o rs i with ⟨-, heq⟩ | ⟨st, f2, hg, hf2, hsteps, htrace⟩
  · rw [heq]
    exact ⟨(fun _ ht => nomatch ht), hInv⟩
  · have hidf2 : ∀ s0, (f2 s0).id = s0.id := by
      rcases hf2 with hh | ⟨v, hh⟩ | ⟨e, hh⟩ <;> subst hh <;> intro s0 <;> rfl
    have hdepf2 : ∀ s0, (f2 s0).dependsOn = s0.dependsOn := by
      rcases hf2 with hh | ⟨v, hh⟩ | ⟨e, hh⟩ <;> subst hh <;> intro s0 <;> rfl
    have hInv1 : Inv (updAt rs.steps i (fun s => { s with status := .running })) := by
      refine Inv_updAt _ _ _ (fun _ => rfl) (fun _ => rfl) ?_ ?_ hInv
      · intro s0 hs0
        rw [(hready s0 hs0).1]
        simp
      · intro s0 hs0 _
        exact (hready s0 hs0).2
    have hInv2 : Inv (updAt (updAt rs.steps i
        (fun s => { s with status := .running })) i f2) := by
      refine Inv_updAt _ _ _ hidf2 hdepf2 ?_ ?_ hInv1
      · intro s0 hs0
        rw [updAt_get?_self, hg] at hs0
        cases hs0
        simp
      · intro s0 hs0 hr
        exact absurd hr (by rcases hf2 with hh | ⟨v, hh⟩ | ⟨e, hh⟩ <;> subst hh <;> simp)
    rw [hsteps, htrace]
    refine ⟨?_, hInv2⟩
    intro t ht
    rcases List.mem_cons.mp ht with ht | ht
    · subst ht
      exact hInv1
    · rcases List.mem_cons.mp ht with ht | ht
      · subst ht
        exact hInv2
      · cases ht

theorem execRound_Inv (o : WfOracle) (rs : WfState) (idxs : List Nat)
    (hInv : Inv rs.steps) (hnd : idxs.Nodup)
    (hready : ∀ i ∈ idxs, ∀ s, rs.steps.get? i = some s →
        s.status = .pending ∧ DepsOk rs.steps s) :
    (∀ t ∈ (execRound o rs idxs).2, Inv t) ∧ Inv (execRound o rs idxs).1.steps := by
  induction idxs generalizing rs with
  | nil => exact ⟨(fun _ ht => nomatch ht), hInv⟩
  | cons i rest ih =>
      obtain ⟨hni, hndr⟩ := List.nodup_cons.mp hnd
      obtain ⟨hT1, hI1⟩ := execStep_Inv o rs i hInv (hready i (List.mem_cons_self _ _))
      have hready' : ∀ j ∈ rest, ∀ s, (execStep o rs i).1.steps.get? j = some s →
          s.status = .pending ∧ DepsOk (execStep o rs i).1.steps s := by
        intro j hj s hs
        have hji : j ≠ i := fun hh => hni (hh ▸ hj)
        rw [execStep_get?_ne o rs i j hji] at hs
        obtain ⟨hp, hdok⟩ := hready j (List.mem_cons_of_mem _ hj) s hs
        refine ⟨hp, DepsOk_execStep o rs i s ?_ hdok⟩
        intro s0 hs0
        rw [(hready i (List.mem_cons_self _ _) s0 hs0).1]
        simp
      obtain ⟨hT2, hI2⟩ := ih (execStep o rs i).1 hI1 hndr hready'
      refine ⟨?_, hI2⟩
      intro t ht
      have ht' : t ∈ (execStep o rs i).2 ++ (execRound o (execStep o rs i).1 rest).2 := ht
      rcases List.mem_append.mp ht' with hm | hm
      · exact hT1 t hm
      · exact hT2 t hm

theorem execLoop_Inv (o : WfOracle) (n : Nat) (rs : WfState) (hInv : Inv rs.steps) :
    (∀ t ∈ (execLoop o n rs).2, Inv t) ∧ Inv (execLoop o n rs).1.steps := by
  induction n generalizing rs with
  | zero => exact ⟨(fun _ ht => nomatch ht), hInv⟩
  | succ n ih =>
      unfold execLoop
      split
      · exact ⟨(fun _ ht => nomatch ht), hInv⟩
      · split
        next heq =>
            refine ⟨?_, Inv_bulkSkip _ hInv⟩
            intro t ht
            rcases List.mem_cons.mp ht with ht | ht
            · subst ht
              exact Inv_bulkSkip _ hInv
            · cases ht
        next i rest heq =>
            have hready : ∀ j ∈ (i :: rest), ∀ s, rs.steps.get? j = some s →
                s.status = .pending ∧ DepsOk rs.steps s := by
              intro j hj s hs
              rw [← heq] at hj
              obtain ⟨s', hs', hp, hd⟩ := (mem_readySteps _ _).mp hj
              rw [hs] at hs'
              cases hs'
              exact ⟨hp, (depsSatisfied_iff _ _).mp hd⟩
            have hnd : (i :: rest).Nodup := by
              rw [← heq]
              exact readySteps_nodup _
            obtain ⟨hT1, hI1⟩ := execRound_Inv o rs _ hInv hnd hready
            obtain ⟨hT2, hI2⟩ := ih _ hI1
            refine ⟨?_, hI2⟩
            intro t ht
            rcases List.mem_append.mp ht with hm | hm
            · exact hT1 t hm
            · exact hT2 t hm

theorem Inv_resetSteps (wf : List WStep) : Inv (resetSteps wf) := by
  intro s hs hrun
  obtain ⟨j, hj⟩ := List.get?_of_mem hs
  rw [resetSteps_get?] at hj
  cases hg : wf.get? j with
  | none => rw [hg] at hj; cases hj
  | some a =>
      rw [hg] at hj
      cases hj
      simp at hrun

/-! ### Termination of `_execute_run`: the loop always completes the run -/

theorem noRunning_iff (l : List WStep) :
    noRunning l = true ↔ ∀ j s, l.get? j = some s → s.status ≠ .running := by
  unfold noRunning
  rw [List.all_eq_true]
  constructor
  · intro h j s hs
    simpa using h s (List.get?_mem hs)
  · intro h s hs
    obtain ⟨j, hj⟩ := List.get?_of_mem hs
    simpa using h j s hj

theorem runComplete_iff (l : List WStep) :
    runComplete l = true ↔
      ∀ j s, l.get? j = some s → s.status ≠ .pending ∧ s.status ≠ .running := by
  unfold runComplete
  rw [List.all_eq_true]
  constructor
  · intro h j s hs
    simpa using h s (List.get?_mem hs)
  · intro h s hs
    obtain ⟨j, hj⟩ := List.get?_of_mem hs
    simpa using h j s hj

theorem pendingCount_updAt_dec (l : List WStep) (i : Nat) (f : WStep → WStep) (s : WStep)
    (hg : l.get? i = some s) (hsp : s.status = .pending)
    (hfp : (f s).status ≠ .pending) :
    pendingCount (updAt l i f) + 1 = pendingCount l := by
  induction l generalizing i with
  | nil => cases hg
  | cons a rest ih =>
      cases i with
      | zero =>
          cases hg
          show List.countP _ (f s :: rest) + 1 = List.countP _ (s :: rest)
          rw [List.countP_cons, List.countP_cons]
          simp [hsp, hfp]
      | succ n =>
          have hg' : rest.get? n = some s := hg
          show List.countP _ (a :: updAt rest n f) + 1 = List.countP _ (a :: rest)
          rw [List.countP_cons, List.countP_cons]
          have hrec := ih n hg'
          unfold pendingCount at hrec
          omega

theorem pendingCount_updAt_eq (l : List WStep) (i : Nat) (f : WStep → WStep) (s : WStep)
    (hg : l.get? i = some s) (hsp : s.status ≠ .pending)
    (hfp : (f s).status ≠ .pending) :
    pendingCount (updAt l i f) = pendingCount l := by
  induction l generalizing i with
  | nil => cases hg
  | cons a rest ih =>
      cases i with
      | zero =>
          cases hg
          show List.countP _ (f s :: rest) = List.countP _ (s :: rest)
          rw [List.countP_cons, List.countP_cons]
          simp [hsp, hfp]
      | succ n =>
          have hg' : rest.get? n = some s := hg
          show List.countP _ (a :: updAt rest n f) = List.countP _ (a :: rest)
          rw [List.countP_cons, List.countP_cons]
          have hrec := ih n hg'
          unfold pendingCount at hrec
          omega

theorem execStep_pendingCount (o : WfOracle) (rs : WfState) (i : Nat) (st : WStep)
    (hg : rs.steps.get? i = some st) (hsp : st.status = .pending) :
    pendingCount (execStep o rs i).1.steps + 1 = pendingCount rs.steps := by
  rcases execStep_cases o rs i with ⟨hnone, -⟩ | ⟨st', f2, hg', hf2, hsteps, -⟩
  · rw [hnone] at hg
    cases hg
  · rw [hg] at hg'
    cases hg'
    rw [hsteps]
    have h1 : pendingCount (updAt rs.steps i
        (fun s => { s with status := StepStatus.running })) + 1 = pendingCount rs.steps :=
      pendingCount_updAt_dec _ _ _ st hg hsp (by simp)
    have hg2 : (updAt rs.steps i (fun s => { s with status := StepStatus.running })).get? i
        = some { st with status := StepStatus.running } := by
      rw [updAt_get?_self, hg]
      rfl
    have h2 : pendingCount (updAt (updAt rs.steps i
          (fun s => { s with status := StepStatus.running })) i f2)
        = pendingCount (updAt rs.steps i (fun s => { s with status := StepStatus.running })) :=
      pendingCount_updAt_eq _ _ _ _ hg2 (by simp)
        (by rcases hf2 with hh | ⟨v, hh⟩ | ⟨e, hh⟩ <;> subst hh <;> simp)
    omega

theorem noRunning_execStep (o : WfOracle) (rs : WfState) (i : Nat)
    (h : noRunning rs.steps = true) : noRunning (execStep o rs i).1.steps = true := by
  rcases execStep_cases o rs i with ⟨-, heq⟩ | ⟨st, f2, hg, hf2, hsteps, -⟩
  · rw [heq]
    exact h
  · rw [hsteps]
    rw [noRunning_iff] at h ⊢
    intro j s hs
    by_cases hji : j = i
    · subst hji
      rw [updAt_get?_self, updAt_get?_self, hg] at hs
      simp only [Option.map_some'] at hs
      cases hs
      rcases hf2 with hh | ⟨v, hh⟩ | ⟨e, hh⟩ <;> subst hh <;> simp
    · rw [updAt_get?_ne _ _ _ _ hji, updAt_get?_ne _ _ _ _ hji] at hs
      exact h j s hs

theorem execRound_pendingCount (o : WfOracle) (rs : WfState) (idxs : List Nat)
    (hnd : idxs.Nodup)
    (hp : ∀ i ∈ idxs, ∃ s, rs.steps.get? i = some s ∧ s.status = .pending) :
    pendingCount (execRound o rs idxs).1.steps + idxs.length = pendingCount rs.steps := by
  induction idxs generalizing rs with
  | nil => simp [execRound]
  | cons i rest ih =>
      obtain ⟨hni, hndr⟩ := List.nodup_cons.mp hnd
      obtain ⟨s, hg, hsp⟩ := hp i (List.mem_cons_self _ _)
      have h1 := execStep_pendingCount o rs i s hg hsp
      have hp' : ∀ j ∈ rest, ∃ s', (execStep o rs i).1.steps.get? j = some s' ∧
          s'.status = .pending := by
        intro j hj
        have hji : j ≠ i := fun hh => hni (hh ▸ hj)
        rw [execStep_get?_ne o rs i j hji]
        exact hp j (List.mem_cons_of_mem _ hj)
      have h2 := ih (execStep o rs i).1 hndr hp'
      show pendingCount (execRound o (execStep o rs i).1 rest).1.steps + (rest.length + 1)
          = pendingCount rs.steps
      omega

theorem execRound_noRunning (o : WfOracle) (rs : WfState) (idxs : List Nat)
    (h : noRunning rs.steps = true) :
    noRunning (execRound o rs idxs).1.steps = true := by
  induction idxs generalizing rs with
  | nil => exact h
  | cons i rest ih => exact ih (execStep o rs i).1 (noRunning_execStep o rs i h)

theorem runComplete_bulkSkip (l : List WStep) (hnr : noRunning l = true) :
    runComplete (bulkSkip l) = true := by
  rw [runComplete_iff]
  rw [noRunning_iff] at hnr
  intro j s hs
  rw [bulkSkip_get?] at hs
  cases hg : l.get? j with
  | none => rw [hg] at hs; cases hs
  | some a =>
      rw [hg] at hs
      simp only [Option.map_some'] at hs
      cases hs
      by_cases hp : a.status = .pending
      · simp [hp]
      · simp only [hp, beq_iff_eq, if_false, ite_false]
        exact ⟨hp, hnr j a hg⟩

theorem execLoop_complete (o : WfOracle) (n : Nat) (rs : WfState)
    (hnr : noRunning rs.steps = true) (hfuel : pendingCount rs.steps < n) :
    runComplete (execLoop o n rs).1.steps = true := by
  induction n generalizing rs with
  | zero => omega
  | succ n ih =>
      unfold execLoop
      split
      next hcomp => exact hcomp
      next hcomp =>
        split
        next heq => exact runComplete_bulkSkip _ hnr
        next i rest heq =>
          have hready : ∀ j ∈ (i :: rest), ∃ s, rs.steps.get? j = some s ∧
              s.status = .pending := by
            intro j hj
            rw [← heq] at hj
            obtain ⟨s', hs', hp', -⟩ := (mem_readySteps _ _).mp hj
            exact ⟨s', hs', hp'⟩
          have hnd : (i :: rest).Nodup := by
            rw [← heq]
            exact readySteps_nodup _
          have hpc := execRound_pendingCount o rs (i :: rest) hnd hready
          refine ih _ (execRound_noRunning o rs (i :: rest) hnr) ?_
          have hlen : (i :: rest).length = rest.length + 1 := rfl
          omega

theorem executeRun_complete (o : WfOracle) (rs : WfState)
    (hnr : noRunning rs.steps = true) :
    runComplete (executeRun o rs).1.steps = true := by
  refine execLoop_complete o _ rs hnr ?_
  unfold pendingCount
  have := List.countP_le_length
      (l := rs.steps) (p := fun s => s.status == StepStatus.pending)
  omega

/-! ### A step whose resolved dependency never succeeds stays blocked -/

/-- If step `i` declares dependency `d`, `d` resolves to position `j`, and the
step at `j` does not end SUCCESS, then step `i` is never set RUNNING: it stays
PENDING until (possibly) the deadlock sweep marks it SKIPPED. -/
theorem execLoop_blocked (o : WfOracle) (n : Nat) (rs : WfState) (i j : Nat) (d : String)
    (hstep : ∃ s, rs.steps.get? i = some s ∧ d ∈ s.dependsOn ∧
        (s.status = .pending ∨ s.status = .skipped))
    (hidx : findStepIdx rs.steps d = some j)
    (hfin : ∀ dep, (execLoop o n rs).1.steps.get? j = some dep → dep.status ≠ .success) :
    (∀ s, (execLoop o n rs).1.steps.get? i = some s →
        s.status = .pending ∨ s.status = .skipped) ∧
    (∀ t ∈ (execLoop o n rs).2, ∀ s, t.get? i = some s →
        s.status = .pending ∨ s.status = .skipped) := by
  induction n generalizing rs with
  | zero =>
      obtain ⟨s, hg, -, hst⟩ := hstep
      refine ⟨?_, fun t ht => nomatch ht⟩
      intro s' hs'
      have hs'' : rs.steps.get? i = some s' := hs'
      rw [hg] at hs''
      cases hs''
      exact hst
  | succ n ih =>
      obtain ⟨s, hg, hd, hst⟩ := hstep
      by_cases hcomp : runComplete rs.steps = true
      · have hEq : execLoop o (n + 1) rs = (rs, []) := by
          unfold execLoop
          simp [hcomp]
        rw [hEq]
        refine ⟨?_, fun t ht => nomatch ht⟩
        intro s' hs'
        rw [hg] at hs'
        cases hs'
        exact hst
      · cases heq : readySteps rs.steps with
        | nil =>
            have hEq : execLoop o (n + 1) rs
                = ({ rs with steps := bulkSkip rs.steps }, [bulkSkip rs.steps]) := by
              unfold execLoop
              simp [hcomp, heq]
            rw [hEq]
            have hbulk : ∀ s', (bulkSkip rs.steps).get? i = some s' →
                s'.status = .pending ∨ s'.status = .skipped := by
              intro s' hs'
              rw [bulkSkip_get?, hg] at hs'
              simp only [Option.map_some'] at hs'
              cases hs'
              rcases hst with h | h <;> simp [h]
            refine ⟨hbulk, ?_⟩
            intro t ht s' hs'
            rcases List.mem_cons.mp ht with ht | ht
            · subst ht
              exact hbulk s' hs'
            · cases ht
        | cons i0 rest =>
            have hEq : execLoop o (n + 1) rs
                = ((execLoop o n (execRound o rs (i0 :: rest)).1).1,
                   (execRound o rs (i0 :: rest)).2
                     ++ (execLoop o n (execRound o rs (i0 :: rest)).1).2) := by
              unfold execLoop
              simp [hcomp, heq]
              refine ⟨?_, ?_⟩ <;> cases n <;> rfl
            have hnotready : i ∉ readySteps rs.steps := by
              intro hmem
              obtain ⟨s', hs', hsp, hds⟩ := (mem_readySteps _ _).mp hmem
              rw [hg] at hs'
              cases hs'
              have hdok := (depsSatisfied_iff _ _).mp hds
              have hj : j < rs.steps.length := findStepIdx_lt _ _ _ hidx
              obtain ⟨depnow, hdep⟩ := get?_isSome_of_lt rs.steps j hj
              have hsucc : depnow.status = .success := by
                apply hdok d hd depnow
                rw [findStep_eq_idx, hidx]
                exact hdep
              have hle := chainLe_le _ _ _ (execLoop_chain o (n + 1) rs)
              have hjlen : j < (execLoop o (n + 1) rs).1.steps.length := by
                rw [← hle.1]
                exact hj
              obtain ⟨depfin, hdepfin⟩ := get?_isSome_of_lt _ j hjlen
              obtain ⟨-, -, hstat⟩ := hle.2 j depnow depfin hdep hdepfin
              rw [hsucc] at hstat
              exact hfin depfin hdepfin (statusLe_of_success _ hstat)
            rw [heq] at hnotready
            obtain ⟨hfr, htr⟩ := execRound_get?_ne o rs (i0 :: rest) i hnotready
            have hpend : ∀ k ∈ (i0 :: rest), ∀ s0, rs.steps.get? k = some s0 →
                s0.status = .pending := by
              intro k hk s0 hs0
              rw [← heq] at hk
              obtain ⟨s1, hs1, hp1, -⟩ := (mem_readySteps _ _).mp hk
              rw [hs0] at hs1
              cases hs1
              exact hp1
            have hndr : (i0 :: rest).Nodup := by
              rw [← heq]
              exact readySteps_nodup _
            have hleR := chainLe_le _ _ _ (execRound_chain o rs (i0 :: rest) hndr hpend)
            have hstep1 : ∃ s', (execRound o rs (i0 :: rest)).1.steps.get? i = some s' ∧
                d ∈ s'.dependsOn ∧ (s'.status = .pending ∨ s'.status = .skipped) := by
              refine ⟨s, ?_, hd, hst⟩
              rw [hfr]
              exact hg
            have hidx1 : findStepIdx (execRound o rs (i0 :: rest)).1.steps d = some j := by
              rw [findStepIdx_congr (execRound o rs (i0 :: rest)).1.steps rs.steps d
                  hleR.1.symm (fun p a b ha hb => (hleR.2 p b a hb ha).1.symm)]
              exact hidx
            have hfin1 : ∀ dep,
                (execLoop o n (execRound o rs (i0 :: rest)).1).1.steps.get? j = some dep →
                dep.status ≠ .success := by
              intro dep hdep
              apply hfin dep
              rw [hEq]
              exact hdep
            obtain ⟨hA, hB⟩ := ih (execRound o rs (i0 :: rest)).1 hstep1 hidx1 hfin1
            rw [hEq]
            refine ⟨hA, ?_⟩
            intro t ht s' hs'
            rcases List.mem_append.mp ht with hm | hm
            · rw [htr t hm, hg] at hs'
              cases hs'
              exact hst
            · exact hB t hm s' hs'

theorem noRunning_resetSteps (wf : List WStep) : noRunning (resetSteps wf) = true := by
  rw [noRunning_iff]
  intro j s hs
  rw [resetSteps_get?] at hs
  cases hg : wf.get? j with
  | none => rw [hg] at hs; cases hs
  | some a =>
      rw [hg] at hs
      simp only [Option.map_some'] at hs
      cases hs
      simp

/-! ### Claims C1 and C4 on the workflow engine -/

/-- Claim C1: at every point of `_execute_run` — on every step-list state of
the run's trace — a RUNNING step has every dependency that resolves to a step
in SUCCESS; and any step one of whose resolved dependencies ends FAILED ends
SKIPPED itself, without ever having been RUNNING. -/
theorem claim_C1_dependency_gating (o : WfOracle) (wf : List WStep)
    (wfVars ov : List (String × PV)) (cc : Nat) :
    (∀ t ∈ runTrace o (initRun wf wfVars ov cc), Inv t) ∧
    (∀ i j d s dep,
        (initRun wf wfVars ov cc).steps.get? i = some s → d ∈ s.dependsOn →
        findStepIdx (initRun wf wfVars ov cc).steps d = some j →
        (executeRun o (initRun wf wfVars ov cc)).1.steps.get? j = some dep →
        dep.status = .failed →
        (∀ s', (executeRun o (initRun wf wfVars ov cc)).1.steps.get? i = some s' →
            s'.status = .skipped) ∧
        (∀ t ∈ runTrace o (initRun wf wfVars ov cc), ∀ s', t.get? i = some s' →
            s'.status ≠ .running)) := by
  constructor
  · intro t ht
    rcases List.mem_cons.mp ht with ht | ht
    · subst ht
      exact Inv_resetSteps wf
    · exact (execLoop_Inv o _ _ (Inv_resetSteps wf)).1 t ht
  · intro i j d s dep hgi hd hidx hgj hfail
    have hsp : s.status = .pending := by
      have hgi' : (resetSteps wf).get? i = some s := hgi
      rw [resetSteps_get?] at hgi'
      cases hg : wf.get? i with
      | none => rw [hg] at hgi'; cases hgi'
      | some a =>
          rw [hg] at hgi'
          simp only [Option.map_some'] at hgi'
          cases hgi'
          rfl
    have hstep : ∃ s0, (initRun wf wfVars ov cc).steps.get? i = some s0 ∧
        d ∈ s0.dependsOn ∧ (s0.status = .pending ∨ s0.status = .skipped) :=
      ⟨s, hgi, hd, Or.inl hsp⟩
    have hfin : ∀ dep',
        (execLoop o ((initRun wf wfVars ov cc).steps.length + 1)
          (initRun wf wfVars ov cc)).1.steps.get? j = some dep' →
        dep'.status ≠ .success := by
      intro dep' hdep'
      have h1 : (executeRun o (initRun wf wfVars ov cc)).1.steps.get? j = some dep' := hdep'
      rw [hgj] at h1
      cases h1
      rw [hfail]
      simp
    obtain ⟨hA, hB⟩ := execLoop_blocked o ((initRun wf wfVars ov cc).steps.length + 1)
      (initRun wf wfVars ov cc) i j d hstep hidx hfin
    constructor
    · intro s' hs'
      rcases hA s' hs' with hP | hS
      · exfalso
        have hcomplete := executeRun_complete o (initRun wf wfVars ov cc)
          (noRunning_resetSteps wf)
        rw [runComplete_iff] at hcomplete
        exact (hcomplete i s' hs').1 hP
      · exact hS
    · intro t ht s' hs'
      rcases List.mem_cons.mp ht with ht | ht
      · subst ht
        have hs'' : (initRun wf wfVars ov cc).steps.get? i = some s' := hs'
        rw [hgi] at hs''
        cases hs''
        rw [hsp]
        simp
      · rcases hB t ht s' hs' with h | h <;> simp [h]

/-- Claim C1 witness: steps A and B with `B.depends_on = ["A"]` under an
always-failing engine — A ends FAILED, so B ends SKIPPED (and was never
RUNNING). -/
theorem claim_C1_dependency_gating_witness :
    (executeRun demoFailOracle (initRun [demoStepA, demoStepB] [] [] 0)).1.steps.get? 1
      = some { demoStepB with status := StepStatus.skipped } ∧
    ({ demoStepB with status := StepStatus.skipped } : WStep).status = StepStatus.skipped := by
  refine ⟨rfl, ?_⟩
  exact ((claim_C1_dependency_gating demoFailOracle [demoStepA, demoStepB] [] [] 0).2
      1 0 "A" _ _ rfl (by simp [demoStepB]) rfl rfl rfl).1 _ rfl

/-- Claim C4 (amended): within a run every step's status evolves one-way along
`statusLe` — PENDING→RUNNING→{SUCCESS|FAILED|SKIPPED} or PENDING→SKIPPED, with
no transition out of a terminal status; a step whose condition evaluates false
is marked SKIPPED without its command being invoked, but only AFTER having
been set RUNNING — its snapshots are the RUNNING one then the SKIPPED one. -/
theorem claim_C4_step_state_machine (o : WfOracle) (wf : List WStep)
    (wfVars ov : List (String × PV)) (cc : Nat) (rs : WfState) (i : Nat) :
    chainLe (initRun wf wfVars ov cc).steps (executeRun o (initRun wf wfVars ov cc)).2
      (executeRun o (initRun wf wfVars ov cc)).1.steps ∧
    (∀ st c, rs.steps.get? i = some st → st.condition = some c →
      o.evalCond c rs.vars = false →
      (execStep o rs i).1.calls = rs.calls ∧
      (execStep o rs i).2
        = [updAt rs.steps i (fun s => { s with status := .running }),
           updAt (updAt rs.steps i (fun s => { s with status := .running })) i
             (fun s => { s with status := .skipped })]) := by
  constructor
  · exact executeRun_chain o _
  · intro st c hg hc hev
    have hg' : rs.steps[i]? = some st := by
      rw [← List.get?_eq_getElem?]
      exact hg
    refine ⟨?_, ?_⟩ <;> simp [execStep, hg, hg', hc, hev]

/-- Claim C4 amended-theorem witness: the single condition-guarded step under
a false-evaluating oracle. -/
theorem claim_C4_step_state_machine_witness :
    (execStep demoCondFalseOracle (initRun [demoStepCond] [] [] 0) 0).1.calls
      = (initRun [demoStepCond] [] [] 0).calls ∧
    (execStep demoCondFalseOracle (initRun [demoStepCond] [] [] 0) 0).2
      = [updAt (initRun [demoStepCond] [] [] 0).steps 0
           (fun s => { s with status := .running }),
         updAt (updAt (initRun [demoStepCond] [] [] 0).steps 0
             (fun s => { s with status := .running })) 0
           (fun s => { s with status := .skipped })] :=
  (claim_C4_step_state_machine demoCondFalseOracle [demoStepCond] [] [] 0
    (initRun [demoStepCond] [] [] 0) 0).2 _ "cond" rfl rfl rfl

end DF
